import Mathlib

/-!
# Verification of the DNUDS sampling engine

A shallow embedding of the DNUDS data-sampling engine (readers, type
inference, privacy masks, statistics, and the sampling strategies),
together with theorems settling the specification claims.

Conventions of the embedding:
* Python dictionaries holding rows are modelled as ordered association
  lists with distinct keys (`Row`); dict assignment on an existing key
  replaces the value in place.
* Python machine floats are modelled as exact rationals; non-finite
  float literals (`inf`, `infinity`, `nan`) are outside the model, and
  `float`/`int` string parsing is modelled on ASCII text.
* `random.Random` is modelled as an abstract state machine (`RngOps`)
  whose operations satisfy the documented contracts of the `random`
  module (`sample` returns `k` elements of the population, `shuffle`
  permutes, `randint 0 n` lands in `[0, n]`).
* Python's process-salted `hash(str)` is a parameter `strHash` of the
  time-aware sampler model: each process corresponds to one choice of
  `strHash`.
-/

set_option autoImplicit false

namespace DNUDS

/-- Exact rational model of a Python float: `num / den`.  Every value the
embedding constructs has a positive denominator; comparisons and
equality are numeric (cross multiplication), mirroring Python's `<`,
`>`, `==` on numbers.  Non-finite floats (`inf`, `nan`) are outside the
model. -/
structure PyFloat where
  num : Int
  den : Nat
deriving DecidableEq, Repr

/-- Embed an integer. -/
def PyFloat.ofInt (n : Int) : PyFloat := ⟨n, 1⟩

/-- Numeric `<` on the fraction model (valid for positive denominators). -/
def pfLt (a b : PyFloat) : Bool := a.num * (b.den : Int) < b.num * (a.den : Int)

/-- Numeric `≤` on the fraction model (valid for positive denominators). -/
def pfLe (a b : PyFloat) : Bool := a.num * (b.den : Int) ≤ b.num * (a.den : Int)

/-- Numeric `==` on the fraction model (valid for positive denominators). -/
def pfEq (a b : PyFloat) : Bool := a.num * (b.den : Int) = b.num * (a.den : Int)

/-- A row value: absent/null, integer, floating point (exact fraction in
the model), boolean, or text.  This is the value vocabulary produced by
the readers (`src/dnuds/formats`). -/
inductive Value where
  | null
  | int (n : Int)
  | float (q : PyFloat)
  | bool (b : Bool)
  | text (s : String)
deriving DecidableEq, Repr

/-- A row: an ordered mapping from column name to value (a Python dict
with string keys; keys are distinct). -/
abbrev Row := List (String × Value)

/-- `row.get(c)` / `row[c]` on a dict. -/
def rowGet (row : Row) (c : String) : Option Value :=
  (row.find? (fun p => p.1 = c)).map Prod.snd

/-- `c in row` on a dict. -/
def rowHas (row : Row) (c : String) : Bool :=
  row.any (fun p => p.1 = c)

/-- `row[c] = v` on a dict whose key `c` is already present: the value is
replaced in place, preserving key order. -/
def rowSet (row : Row) (c : String) (v : Value) : Row :=
  row.map (fun p => if p.1 = c then (p.1, v) else p)

/-! ## Python text helpers (ASCII model) -/

/-- Characters `str.strip()` removes (ASCII whitespace model). -/
def pyIsSpace (c : Char) : Bool :=
  c = ' ' || c = '\t' || c = '\n' || c = '\r' || c = '\x0b' || c = '\x0c'

def dropLeadingSpace : List Char → List Char
  | [] => []
  | c :: rest => if pyIsSpace c then dropLeadingSpace rest else c :: rest

/-- `str.strip()` on a character list. -/
def pyStripChars (l : List Char) : List Char :=
  ((dropLeadingSpace ((dropLeadingSpace l).reverse)).reverse)

/-- `str.strip()`. -/
def pyStrip (s : String) : String := ⟨pyStripChars s.data⟩

/-- `str.lower()` (ASCII model). -/
def pyLower (s : String) : String := ⟨s.data.map Char.toLower⟩

/-- `str.upper()` (ASCII model). -/
def pyUpper (s : String) : String := ⟨s.data.map Char.toUpper⟩

/-! ## Python numeric literal parsing

`int(s)` and `float(s)` on already-stripped ASCII text: optional sign,
digit runs that may contain single underscores between digits, and for
floats an optional fractional part and exponent. -/

/-- Tail of a digit run: digits, with `_` allowed only between digits. -/
def digitRunTailOk : List Char → Bool
  | [] => true
  | ['_'] => false
  | '_' :: c :: rest => c.isDigit && digitRunTailOk rest
  | c :: rest => c.isDigit && digitRunTailOk rest

/-- A non-empty digit run (leading character must be a digit). -/
def isDigitRun : List Char → Bool
  | [] => false
  | c :: rest => c.isDigit && digitRunTailOk rest

/-- Numeric value of a digit run, ignoring underscores. -/
def digitsVal (l : List Char) : Nat :=
  l.foldl (fun acc c => if c = '_' then acc else acc * 10 + (c.toNat - '0'.toNat)) 0

/-- Python `int(s)` on a character list (ASCII model). -/
def pyIntParseChars (l : List Char) : Option Int :=
  match pyStripChars l with
  | '+' :: rest => if isDigitRun rest then some ((digitsVal rest : Nat) : Int) else none
  | '-' :: rest => if isDigitRun rest then some (-((digitsVal rest : Nat) : Int)) else none
  | rest => if isDigitRun rest then some ((digitsVal rest : Nat) : Int) else none

/-- Python `int(s)`. -/
def pyIntParse (s : String) : Option Int := pyIntParseChars s.data

/-- Split at the first `e`/`E` (mantissa, optional exponent text). -/
def splitAtExp : List Char → (List Char × Option (List Char))
  | [] => ([], none)
  | c :: rest =>
    if c = 'e' || c = 'E' then ([], some rest)
    else
      let p := splitAtExp rest
      (c :: p.1, p.2)

/-- Split at the first `.` (integer part, optional fractional text). -/
def splitAtDot : List Char → (List Char × Option (List Char))
  | [] => ([], none)
  | c :: rest =>
    if c = '.' then ([], some rest)
    else
      let p := splitAtDot rest
      (c :: p.1, p.2)

/-- Validity of a float mantissa: digits, or digits on at least one side
of a single dot. -/
def mantissaOk (ip : List Char) (fp : Option (List Char)) : Bool :=
  match fp with
  | none => isDigitRun ip
  | some f =>
    (ip = [] || isDigitRun ip) && (f = [] || isDigitRun f) && !(ip = [] && f = [])

/-- Number of digits of a fractional run (underscores excluded). -/
def fracLen (f : List Char) : Nat := (f.filter (fun c => c ≠ '_')).length

/-- Kernel-computable power of ten. -/
def pow10 : Nat → Nat
  | 0 => 1
  | n + 1 => 10 * pow10 n

/-- Fraction value of a mantissa. -/
def mantVal (ip : List Char) (fp : Option (List Char)) : PyFloat :=
  match fp with
  | none => ⟨(digitsVal ip : Int), 1⟩
  | some f => ⟨(digitsVal ip : Int) * (pow10 (fracLen f) : Int) + (digitsVal f : Int),
               pow10 (fracLen f)⟩

/-- Validity of an exponent part: optional sign then a digit run. -/
def expOk : List Char → Bool
  | '+' :: r => isDigitRun r
  | '-' :: r => isDigitRun r
  | r => isDigitRun r

/-- Signed value of an exponent part. -/
def expVal : List Char → Int
  | '+' :: r => ((digitsVal r : Nat) : Int)
  | '-' :: r => -((digitsVal r : Nat) : Int)
  | r => ((digitsVal r : Nat) : Int)

/-- Scale a mantissa by a power of ten. -/
def applyExp (m : PyFloat) (e : Int) : PyFloat :=
  if 0 ≤ e then ⟨m.num * (pow10 e.toNat : Int), m.den⟩
  else ⟨m.num, m.den * pow10 (-e).toNat⟩

/-- Negate when the literal carries a minus sign. -/
def applySign (neg : Bool) (m : PyFloat) : PyFloat :=
  if neg then ⟨-m.num, m.den⟩ else m

/-- Python `float(s)` on a character list (finite ASCII literals;
`inf`/`nan` are outside the fraction model). -/
def pyFloatParseChars (l : List Char) : Option PyFloat :=
  let stripped := pyStripChars l
  let sb : Bool × List Char :=
    match stripped with
    | '+' :: r => (false, r)
    | '-' :: r => (true, r)
    | r => (false, r)
  let me := splitAtExp sb.2
  let ifp := splitAtDot me.1
  if mantissaOk ifp.1 ifp.2 then
    match me.2 with
    | none => some (applySign sb.1 (mantVal ifp.1 ifp.2))
    | some e =>
      if expOk e then some (applySign sb.1 (applyExp (mantVal ifp.1 ifp.2) (expVal e)))
      else none
  else none

/-- Python `float(s)`. -/
def pyFloatParse (s : String) : Option PyFloat := pyFloatParseChars s.data

/-! ## Type inference (`src/dnuds/profiling/type_inference.py`) -/

/-- Possible type guesses for column values. -/
inductive TypeGuess where
  | string
  | integer
  | float
  | boolean
  | datetime
  | unknown
deriving DecidableEq, Repr

/-- Match a fixed-shape character pattern as a prefix (Python
`re.match`, which anchors at the start only). -/
def matchRun : List (Char → Bool) → List Char → Bool
  | [], _ => true
  | _ :: _, [] => false
  | f :: fs, c :: cs => f c && matchRun fs cs

def isDigitSpec (n : Nat) : List (Char → Bool) := List.replicate n Char.isDigit

def litSpec (c : Char) : List (Char → Bool) := [fun x => x = c]

/-- `\d{4}-\d{2}-\d{2}[T ]\d{2}:\d{2}:\d{2}` -/
def dtPattern1 : List (Char → Bool) :=
  isDigitSpec 4 ++ litSpec '-' ++ isDigitSpec 2 ++ litSpec '-' ++ isDigitSpec 2 ++
    [fun x => x = 'T' || x = ' '] ++
    isDigitSpec 2 ++ litSpec ':' ++ isDigitSpec 2 ++ litSpec ':' ++ isDigitSpec 2

/-- `\d{4}-\d{2}-\d{2}` -/
def dtPattern2 : List (Char → Bool) :=
  isDigitSpec 4 ++ litSpec '-' ++ isDigitSpec 2 ++ litSpec '-' ++ isDigitSpec 2

/-- `\d{2}/\d{2}/\d{4}` -/
def dtPattern3 : List (Char → Bool) :=
  isDigitSpec 2 ++ litSpec '/' ++ isDigitSpec 2 ++ litSpec '/' ++ isDigitSpec 4

/-- `\d{2}-\d{2}-\d{4}` -/
def dtPattern4 : List (Char → Bool) :=
  isDigitSpec 2 ++ litSpec '-' ++ isDigitSpec 2 ++ litSpec '-' ++ isDigitSpec 4

/-- DATETIME_PATTERNS tried in order with `re.match`. -/
def matchesDatetime (l : List Char) : Bool :=
  matchRun dtPattern1 l || matchRun dtPattern2 l || matchRun dtPattern3 l ||
    matchRun dtPattern4 l

/-- Boolean-looking strings (lower-cased comparison set). -/
def boolStrings : List (List Char) :=
  [['t','r','u','e'], ['f','a','l','s','e'], ['y','e','s'], ['n','o'], ['1'], ['0']]

/-- `infer_type`: infer the type of a single value. -/
def inferType (v : Value) : TypeGuess :=
  match v with
  | .null => .unknown
  | .bool _ => .boolean
  | .int _ => .integer
  | .float _ => .float
  | .text s =>
    let st := pyStripChars s.data
    if st = [] then .string
    else if boolStrings.contains (st.map Char.toLower) then .boolean
    else if (pyIntParseChars st).isSome then .integer
    else if (pyFloatParseChars st).isSome then .float
    else if matchesDatetime st then .datetime
    else .string

/-- Increment the count of tag `t` in an insertion-ordered dict
(`type_counts[type_guess] = type_counts.get(type_guess, 0) + 1`). -/
def bumpCount (counts : List (TypeGuess × Nat)) (t : TypeGuess) : List (TypeGuess × Nat) :=
  if counts.any (fun p => p.1 = t) then
    counts.map (fun p => if p.1 = t then (p.1, p.2 + 1) else p)
  else counts ++ [(t, 1)]

/-- Python `max(items, key=lambda x: x[1])`: the first entry with the
largest count, in insertion order. -/
def pyMaxBySnd : List (TypeGuess × Nat) → Option (TypeGuess × Nat)
  | [] => none
  | x :: rest => some (rest.foldl (fun best p => if p.2 > best.2 then p else best) x)

/-- `infer_column_type`: infer the type of a column from its values. -/
def inferColumnType (values : List Value) (sampleSize : Nat := 100) : TypeGuess :=
  if values = [] then .unknown
  else
    let sample := if values.length > sampleSize then values.take sampleSize else values
    let counts :=
      sample.foldl (fun acc v => if v = .null then acc else bumpCount acc (inferType v)) []
    match pyMaxBySnd counts with
    | none => .unknown
    | some p => p.1

/-- The window `infer_column_type` actually inspects: the first 100
values of the column, nulls included. -/
def inferenceWindow (values : List Value) : List Value :=
  if values.length > 100 then values.take 100 else values

/-- The tag counts accumulated over a value window (nulls skipped). -/
def tagCounts (vs : List Value) : List (TypeGuess × Nat) :=
  vs.foldl (fun acc v => if v = .null then acc else bumpCount acc (inferType v)) []

/-! ## JSON syntax validity (`json.loads` acceptance, used by format detection)

A fuel-based recognizer for the JSON grammar accepted by Python's
`json.loads` (including the non-standard `NaN` / `Infinity` constants it
accepts by default).  Only validity matters to the format detector. -/

def jsonWsChar (c : Char) : Bool := c = ' ' || c = '\t' || c = '\n' || c = '\r'

def skipWs : List Char → List Char
  | [] => []
  | c :: rest => if jsonWsChar c then skipWs rest else c :: rest

def hexDigit (c : Char) : Bool :=
  c.isDigit || ('a' ≤ c && c ≤ 'f') || ('A' ≤ c && c ≤ 'F')

/-- Consume the tail of a JSON string (after the opening quote). -/
def jsonStringTail : List Char → Option (List Char)
  | [] => none
  | '"' :: rest => some rest
  | '\\' :: rest =>
    match rest with
    | [] => none
    | 'u' :: a :: b :: c :: d :: r2 =>
      if hexDigit a && hexDigit b && hexDigit c && hexDigit d then jsonStringTail r2
      else none
    | e :: r2 =>
      if e = '"' || e = '\\' || e = '/' || e = 'b' || e = 'f' || e = 'n' || e = 'r' || e = 't'
      then jsonStringTail r2
      else none
  | c :: rest => if 0x20 ≤ c.toNat then jsonStringTail rest else none

/-- Take a maximal run of digits. -/
def takeDigits : List Char → (List Char × List Char)
  | [] => ([], [])
  | c :: rest =>
    if c.isDigit then
      let p := takeDigits rest
      (c :: p.1, p.2)
    else ([], c :: rest)

/-- Consume an optional exponent part. -/
def jsonExpTail (l : List Char) : Option (List Char) :=
  match l with
  | 'e' :: r =>
    let r2 := match r with
      | '+' :: x => x
      | '-' :: x => x
      | x => x
    let p := takeDigits r2
    if p.1 = [] then none else some p.2
  | 'E' :: r =>
    let r2 := match r with
      | '+' :: x => x
      | '-' :: x => x
      | x => x
    let p := takeDigits r2
    if p.1 = [] then none else some p.2
  | _ => some l

/-- Consume an optional fraction, then an optional exponent. -/
def jsonFracTail (l : List Char) : Option (List Char) :=
  match l with
  | '.' :: r =>
    let p := takeDigits r
    if p.1 = [] then none else jsonExpTail p.2
  | _ => jsonExpTail l

/-- Consume a JSON number body (after an optional leading minus). -/
def jsonNumberTail (l : List Char) : Option (List Char) :=
  match l with
  | '0' :: rest => jsonFracTail rest
  | c :: rest => if c.isDigit then jsonFracTail (takeDigits rest).2 else none
  | [] => none

mutual

/-- Consume one JSON value. -/
def jsonValue : Nat → List Char → Option (List Char)
  | 0, _ => none
  | f + 1, l =>
    match skipWs l with
    | '{' :: rest =>
      match skipWs rest with
      | '}' :: r2 => some r2
      | r2 => jsonMembers f r2
    | '[' :: rest =>
      match skipWs rest with
      | ']' :: r2 => some r2
      | r2 => jsonElems f r2
    | '"' :: rest => jsonStringTail rest
    | 't' :: 'r' :: 'u' :: 'e' :: rest => some rest
    | 'f' :: 'a' :: 'l' :: 's' :: 'e' :: rest => some rest
    | 'n' :: 'u' :: 'l' :: 'l' :: rest => some rest
    | 'N' :: 'a' :: 'N' :: rest => some rest
    | 'I' :: 'n' :: 'f' :: 'i' :: 'n' :: 'i' :: 't' :: 'y' :: rest => some rest
    | '-' :: 'I' :: 'n' :: 'f' :: 'i' :: 'n' :: 'i' :: 't' :: 'y' :: rest => some rest
    | '-' :: rest => jsonNumberTail rest
    | c :: rest => if c.isDigit then jsonNumberTail (c :: rest) else none
    | [] => none

/-- Consume the members of a non-empty JSON object, incl. closing brace. -/
def jsonMembers : Nat → List Char → Option (List Char)
  | 0, _ => none
  | f + 1, l =>
    match skipWs l with
    | '"' :: rest =>
      match jsonStringTail rest with
      | none => none
      | some r2 =>
        match skipWs r2 with
        | ':' :: r3 =>
          match jsonValue f r3 with
          | none => none
          | some r4 =>
            match skipWs r4 with
            | ',' :: r5 => jsonMembers f r5
            | '}' :: r5 => some r5
            | _ => none
        | _ => none
    | _ => none

/-- Consume the elements of a non-empty JSON array, incl. closing bracket. -/
def jsonElems : Nat → List Char → Option (List Char)
  | 0, _ => none
  | f + 1, l =>
    match jsonValue f l with
    | none => none
    | some r =>
      match skipWs r with
      | ',' :: r2 => jsonElems f r2
      | ']' :: r2 => some r2
      | _ => none

end

/-- Whether `json.loads` accepts the whole text. -/
def jsonValidChars (l : List Char) : Bool :=
  match jsonValue (l.length + 1) l with
  | some r => (skipWs r).isEmpty
  | none => false

/-! ## Format detection (`src/dnuds/formats/format_detector.py`) -/

inductive FormatType where
  | csv
  | jsonl
  | log
  | sql
  | unknown
deriving DecidableEq, Repr

/-- The final path component (text after the last `/`). -/
def lastComponent (l : List Char) : List Char :=
  l.foldl (fun acc c => if c = '/' then [] else acc ++ [c]) []

/-- Index of the last `.` in a name (Python `str.rfind`). -/
def lastDotIndex (l : List Char) : Option Nat :=
  l.enum.foldl (fun acc p => if p.2 = '.' then some p.1 else acc) none

/-- `pathlib.Path(file_path).suffix`: the extension of the final
component, empty when the dot is leading or trailing. -/
def pathSuffix (filePath : String) : String :=
  let name := lastComponent filePath.data
  match lastDotIndex name with
  | some idx => if 0 < idx && idx + 1 < name.length then ⟨name.drop idx⟩ else ""
  | none => ""

/-- `\s` of Python's `re` (ASCII model). -/
def isRegexSpace (c : Char) : Bool :=
  c = ' ' || c = '\t' || c = '\n' || c = '\r' || c = '\x0b' || c = '\x0c'

/-- After `INSERT` and one whitespace char: more whitespace then `INTO`. -/
def wsStarInto : List Char → Bool
  | 'I' :: 'N' :: 'T' :: 'O' :: _ => true
  | c :: rest => isRegexSpace c && wsStarInto rest
  | [] => false

/-- Does the pattern `INSERT\s+INTO` match at the head of the text? -/
def insertIntoHere : List Char → Bool
  | 'I' :: 'N' :: 'S' :: 'E' :: 'R' :: 'T' :: c :: rest => isRegexSpace c && wsStarInto (c :: rest)
  | _ => false

/-- `re.search(r"INSERT\s+INTO", text)`: match at any position. -/
def searchInsertInto : List Char → Bool
  | [] => false
  | c :: rest => insertIntoHere (c :: rest) || searchInsertInto rest

/-- `detect_format`: extension mapping first, then content-based rules in
source order (JSON object, then comma/newline tabular, then the
`INSERT\s+INTO` search — which the source performs on the *lower-cased*
fragment). -/
def detectFormat (filePath : String) (contentHint : Option String := none) : FormatType :=
  let extension := pyLower (pathSuffix filePath)
  if extension = ".csv" then .csv
  else if extension = ".jsonl" || extension = ".ndjson" then .jsonl
  else if extension = ".log" then .log
  else if extension = ".sql" then .sql
  else
    match contentHint with
    | some hint =>
      if hint.data.isEmpty then .unknown
      else
        let contentLower := pyLower hint
        let stripped := pyStripChars hint.data
        let isJson :=
          if stripped.head? = some '{' && stripped.getLast? = some '}' then
            jsonValidChars stripped
          else false
        if isJson then .jsonl
        else if hint.data.contains ',' && hint.data.contains '\n' then .csv
        else if searchInsertInto contentLower.data then .sql
        else .unknown
    | none => .unknown

/-! ## SQL value decoding (`src/dnuds/formats/sql_reader.py`) -/

/-- Replace occurrences of the two-character pattern `[a, b]` by `[c]`,
left to right, non-overlapping (Python `str.replace` with a two-char
needle and one-char replacement). -/
def replacePair (a b c : Char) : List Char → List Char
  | x :: y :: rest =>
    if x = a && y = b then c :: replacePair a b c rest
    else x :: replacePair a b c (y :: rest)
  | l => l

/-- `unquoted.replace("\\'", "'").replace('\\"', '"')`. -/
def unescapeQuotes (l : List Char) : List Char :=
  replacePair '\\' '"' '"' (replacePair '\\' '\'' '\'' l)

/-- `SQLReader._parse_value`: decode one SQL value token. -/
def parseValue (valueStr : String) : Value :=
  let v := pyStripChars valueStr.data
  if v.map Char.toUpper = ['N', 'U', 'L', 'L'] then .null
  else if (v.head? = some '\'' && v.getLast? = some '\'') ||
      (v.head? = some '"' && v.getLast? = some '"') then
    .text ⟨unescapeQuotes ((v.drop 1).dropLast)⟩
  else
    match (if v.contains '.' then (pyFloatParseChars v).map Value.float
           else (pyIntParseChars v).map Value.int) with
    | some w => w
    | none =>
      if v.map Char.toUpper = ['T', 'R', 'U', 'E'] then .bool true
      else if v.map Char.toUpper = ['F', 'A', 'L', 'S', 'E'] then .bool false
      else .text ⟨v⟩

/-! ## Privacy masks (`src/dnuds/privacy/masks.py`) and rules
(`src/dnuds/privacy/rules.py`)

The cryptographic digests are abstract parameters (`HashFns`): no claim
inspects digest contents. -/

structure HashFns where
  sha256 : String → String
  sha1 : String → String
  md5 : String → String

/-- `str(value)` (fractions rendered best-effort; no claim inspects the
rendering of a float). -/
def pyStr : Value → String
  | .null => "None"
  | .int n => toString n
  | .float q => toString q.num ++ "/" ++ toString q.den
  | .bool b => if b then "True" else "False"
  | .text s => s

/-- `hash_mask`: note the null check precedes the algorithm check, so an
unsupported algorithm does not fail on a null value. -/
def hashMask (H : HashFns) (value : Value) (algorithm : String) : Except String String :=
  if value = .null then .ok ""
  else if algorithm = "sha256" then .ok (H.sha256 (pyStr value))
  else if algorithm = "sha1" then .ok (H.sha1 (pyStr value))
  else if algorithm = "md5" then .ok (H.md5 (pyStr value))
  else .error ("Unsupported hash algorithm: " ++ algorithm)

/-- `redact_mask`: always the token. -/
def redactMask (_value : Value) (token : String) : String := token

/-- `truncate_mask`. -/
def truncateMask (value : Value) (maxLength : Nat) : String :=
  if value = .null then ""
  else
    let s := pyStr value
    if s.data.length ≤ maxLength then s
    else ⟨s.data.take maxLength⟩ ++ "..."

/-- `float(value)` as used by `bucket_mask` (`ValueError`/`TypeError`
become `none`, which the source maps to the empty label). -/
def pyFloatOfValue : Value → Option PyFloat
  | .null => none
  | .int n => some (PyFloat.ofInt n)
  | .float q => some q
  | .bool v => some (PyFloat.ofInt (if v then 1 else 0))
  | .text s => pyFloatParse s

/-- `bucket_mask`: floor-division bucketing; a zero bucket size raises
`ZeroDivisionError`, which the source does not catch.  `q // b` is the
floor of `q.num / (q.den * b)`, computed with `Int.fdiv`. -/
def bucketMask (value : Value) (bucketSize : Int) : Except String String :=
  if value = .null then .ok ""
  else
    match pyFloatOfValue value with
    | none => .ok ""
    | some q =>
      if bucketSize = 0 then .error "ZeroDivisionError"
      else
        let bucketStart : Int := (Int.fdiv q.num ((q.den : Int) * bucketSize)) * bucketSize
        .ok (toString bucketStart ++ "-" ++ toString (bucketStart + bucketSize - 1))

/-- Parameters of a mask, at the types the spec assigns them. -/
structure MaskParams where
  algorithm : Option String := none
  token : Option String := none
  max_length : Option Nat := none
  bucket_size : Option Int := none
deriving DecidableEq, Repr

/-- `apply_mask`: dispatch on the mask kind; an unknown kind raises
`ValueError` at application time. -/
def applyMask (H : HashFns) (value : Value) (maskType : String) (params : MaskParams) :
    Except String Value :=
  if maskType = "hash" then (hashMask H value (params.algorithm.getD "sha256")).map .text
  else if maskType = "redact" then .ok (.text (redactMask value (params.token.getD "[REDACTED]")))
  else if maskType = "truncate" then .ok (.text (truncateMask value (params.max_length.getD 4)))
  else if maskType = "bucket" then (bucketMask value (params.bucket_size.getD 10)).map .text
  else .error ("Unknown mask type: " ++ maskType)

/-- `PrivacyRule` (`src/dnuds/config.py`): a plain dataclass — its
construction performs no validation of the mask kind. -/
structure PrivacyRule where
  column : String
  mask_type : String
  mask_params : MaskParams := {}

/-- One iteration of the `apply_privacy_rules` loop. -/
def applyRule (H : HashFns) (acc : Row) (rule : PrivacyRule) : Except String Row :=
  if rowHas acc rule.column then
    match rowGet acc rule.column with
    | some v =>
      (applyMask H v rule.mask_type rule.mask_params).map (fun mv => rowSet acc rule.column mv)
    | none => .ok acc
  else .ok acc

/-- `apply_privacy_rules`: apply rules in order to a copy of the row. -/
def applyPrivacyRules (H : HashFns) (row : Row) (rules : List PrivacyRule) :
    Except String Row :=
  if rules.isEmpty then .ok row
  else rules.foldlM (applyRule H) row

/-! ## Column statistics (`src/dnuds/profiling/stats.py`) and the
manifest's per-column block (`src/dnuds/manifest.py`) -/

/-- `isinstance(value, (int, float))` — booleans are ints in Python. -/
def isPyNumeric : Value → Bool
  | .int _ => true
  | .float _ => true
  | .bool _ => true
  | _ => false

/-- Numeric magnitude used by Python's `<`/`>` on numbers (`True` is 1,
`False` is 0). -/
def pyNum : Value → PyFloat
  | .int n => PyFloat.ofInt n
  | .float q => q
  | .bool b => PyFloat.ofInt (if b then 1 else 0)
  | _ => PyFloat.ofInt 0

/-- Python `==` as used for dict keys: cross-type numeric equality. -/
def pyEq (a b : Value) : Bool :=
  if isPyNumeric a && isPyNumeric b then pfEq (pyNum a) (pyNum b)
  else
    match a, b with
    | .text s, .text t => s = t
    | .null, .null => true
    | _, _ => false

structure ColumnStats where
  column_name : String
  type_guess : TypeGuess := .unknown
  null_count : Nat := 0
  total_count : Nat := 0
  min_value : Option Value := none
  max_value : Option Value := none
  top_values : List (Value × Nat) := []
  unique_count : Nat := 0
deriving DecidableEq, Repr

/-- `ColumnStats.update`. -/
def ColumnStats.update (st : ColumnStats) (value : Value) : ColumnStats :=
  let st := { st with total_count := st.total_count + 1 }
  if value = .null then { st with null_count := st.null_count + 1 }
  else
    let st :=
      if isPyNumeric value then
        let st1 :=
          match st.min_value with
          | none => { st with min_value := some value }
          | some m =>
            if pfLt (pyNum value) (pyNum m) then { st with min_value := some value } else st
        match st1.max_value with
        | none => { st1 with max_value := some value }
        | some m =>
          if pfLt (pyNum m) (pyNum value) then { st1 with max_value := some value } else st1
      else st
    let st :=
      if st.top_values.any (fun p => pyEq p.1 value) then st
      else { st with unique_count := st.unique_count + 1 }
    if st.top_values.any (fun p => pyEq p.1 value) then
      { st with
        top_values := st.top_values.map (fun p => if pyEq p.1 value then (p.1, p.2 + 1) else p) }
    else { st with top_values := st.top_values ++ [(value, 1)] }

/-- JSON values as emitted into the manifest. -/
inductive JsonV where
  | s (v : String)
  | i (v : Int)
  | f (v : PyFloat)
  | b (v : Bool)
  | null
  | arr (l : List JsonV)

/-- How `json.dump` serializes a row value. -/
def valueToJson : Value → JsonV
  | .null => .null
  | .int n => .i n
  | .float q => .f q
  | .bool v => .b v
  | .text v => .s v

/-- The `.value` string of a `TypeGuess`. -/
def tagString : TypeGuess → String
  | .string => "string"
  | .integer => "integer"
  | .float => "float"
  | .boolean => "boolean"
  | .datetime => "datetime"
  | .unknown => "unknown"

/-- The per-column statistics block `generate_manifest` emits: counts
always, `min_value`/`max_value` only when non-null, `top_values` (first
ten entries) only when non-empty. -/
def manifestColumnEntry (cs : ColumnStats) : List (String × JsonV) :=
  [("type_guess", .s (tagString cs.type_guess)),
   ("null_count", .i cs.null_count),
   ("total_count", .i cs.total_count),
   ("unique_count", .i cs.unique_count)]
  ++ (match cs.min_value with
      | some v => [("min_value", valueToJson v)]
      | none => [])
  ++ (match cs.max_value with
      | some v => [("max_value", valueToJson v)]
      | none => [])
  ++ (if cs.top_values.isEmpty then []
      else [("top_values",
             .arr ((cs.top_values.take 10).map (fun p => .arr [.s (pyStr p.1), .i p.2])))])

/-! ## Samplers (`src/dnuds/sampling/`)

`random.Random` is modelled abstractly: a state type `ρ` and the three
operations the samplers call.  Theorems assume only the documented
contracts of the `random` module (the draw of `randint(0, n)` lies in
`[0, n]`; `sample(pop, k)` returns `k` elements of `pop`; `shuffle`
permutes). -/

structure RngOps (ρ : Type) where
  randint : ρ → Nat → Nat × ρ
  sampleK : {α : Type} → ρ → List α → Nat → List α × ρ
  shuffle : {α : Type} → ρ → List α → List α × ρ

/-- A degenerate but contract-satisfying RNG used to instantiate
witnesses: `sample` takes a prefix, `shuffle` is the identity,
`randint` draws 0. -/
def takeRng : RngOps Unit where
  randint := fun _ _ => (0, ())
  sampleK := fun _ l k => (l.take k, ())
  shuffle := fun _ l => (l, ())

/-! ### Random sampler (`random_sampler.py`) -/

/-- One iteration of the `RandomSampler.sample` loop; the state is
(reservoir, rng, count). -/
def reservoirStep {ρ : Type} (R : RngOps ρ) (T : Nat)
    (st : List Row × ρ × Nat) (row : Row) : List Row × ρ × Nat :=
  if st.1.length < T then (st.1 ++ [row], st.2.1, st.2.2 + 1)
  else
    let p := R.randint st.2.1 st.2.2
    if p.1 < T then (st.1.set p.1 row, p.2, st.2.2 + 1)
    else (st.1, p.2, st.2.2 + 1)

/-- The full loop of `RandomSampler.sample`. -/
def reservoirRun {ρ : Type} (R : RngOps ρ) (r0 : ρ) (T : Nat) (rows : List Row) :
    List Row × ρ × Nat :=
  rows.foldl (reservoirStep R T) ([], r0, 0)

/-- `RandomSampler.sample`: the emitted reservoir. -/
def randomSample {ρ : Type} (R : RngOps ρ) (r0 : ρ) (T : Nat) (rows : List Row) : List Row :=
  (reservoirRun R r0 T rows).1

/-! ### Time-aware sampler (`time_sampler.py`) -/

/-- `TimeSampler._get_timestamp_value`.  `strHash` models Python's
process-salted `hash(str)`: each process is one choice of `strHash`. -/
def getTimestampValue (strHash : String → Int) (timeColumn : Option String)
    (row : Row) (rowIndex : Nat) : PyFloat :=
  match timeColumn with
  | some col =>
    if col.data.isEmpty then PyFloat.ofInt rowIndex
    else if rowHas row col then
      match rowGet row col with
      | some (.int n) => PyFloat.ofInt n
      | some (.float q) => q
      | some (.bool v) => PyFloat.ofInt (if v then 1 else 0)
      | some (.text s) =>
        match pyFloatParse s with
        | some q => q
        | none => PyFloat.ofInt (strHash s)
      | _ => PyFloat.ofInt rowIndex
    else PyFloat.ofInt rowIndex
  | none => PyFloat.ofInt rowIndex

/-- Stable insertion into a key-sorted list (equal keys keep their
original relative order, as with Python's stable `list.sort`). -/
def insertByKey (p : PyFloat × Row) : List (PyFloat × Row) → List (PyFloat × Row)
  | [] => [p]
  | q :: rest => if pfLe p.1 q.1 then p :: q :: rest else q :: insertByKey p rest

/-- Stable sort ascending by timestamp (`all_rows.sort(key=...)`). -/
def sortByKey : List (PyFloat × Row) → List (PyFloat × Row)
  | [] => []
  | p :: rest => insertByKey p (sortByKey rest)

/-- `TimeSampler.sample`. -/
def timeSample {ρ : Type} (strHash : String → Int) (R : RngOps ρ) (r0 : ρ)
    (timeColumn : Option String) (T : Nat) (rows : List Row) : List Row :=
  let all := rows.enum.map (fun p => (getTimestampValue strHash timeColumn p.2 p.1, p.2))
  if all.isEmpty then []
  else
    let sorted := sortByKey all
    let total := sorted.length
    if total ≤ T then sorted.map Prod.snd
    else
      let segSize := total / 3
      let early := sorted.take segSize
      let middle := (sorted.drop segSize).take segSize
      let late := sorted.drop (2 * segSize)
      let sps := T / 3
      let rem0 := T - sps * 3
      let b1 : List Row × Nat × ρ :=
        if early.isEmpty then ([], rem0, r0)
        else
          let cnt := min (sps + (if 0 < rem0 then 1 else 0)) early.length
          let p := R.sampleK r0 early cnt
          (p.1.map Prod.snd, rem0 - (if 0 < rem0 then 1 else 0), p.2)
      let b2 : List Row × Nat × ρ :=
        if middle.isEmpty then b1
        else
          let cnt := min (sps + (if 0 < b1.2.1 then 1 else 0)) middle.length
          let p := R.sampleK b1.2.2 middle cnt
          (b1.1 ++ p.1.map Prod.snd, b1.2.1 - (if 0 < b1.2.1 then 1 else 0), p.2)
      let b3 : List Row × ρ :=
        if late.isEmpty then (b2.1, b2.2.2)
        else
          let cnt := min (sps + b2.2.1) late.length
          let p := R.sampleK b2.2.2 late cnt
          (b2.1 ++ p.1.map Prod.snd, p.2)
      let sh := R.shuffle b3.2 b3.1
      sh.1.take T

/-! ### Outlier-aware sampler (`outlier_sampler.py`)

Rows are tagged with their arrival index at ingest; Python's `id()`
deduplication becomes index equality (buffered rows are distinct
objects, one per arrival). -/

/-- `OutlierSampler._get_numeric_value`. -/
def getNumericValue : Value → Option PyFloat
  | .null => none
  | .int n => some (PyFloat.ofInt n)
  | .float q => some q
  | .bool v => some (PyFloat.ofInt (if v then 1 else 0))
  | .text s => pyFloatParse s

/-- Tracked min/max state of one column: the extreme values and the
(index-tagged) rows carrying them. -/
structure Extrema where
  minV : PyFloat
  minEntry : Nat × Row
  maxV : PyFloat
  maxEntry : Nat × Row
deriving DecidableEq, Repr

/-- The strict-comparison min/max update of `OutlierSampler.sample`. -/
def updateExtrema (e : Extrema) (q : PyFloat) (p : Nat × Row) : Extrema :=
  let e1 := if pfLt q e.minV then { e with minV := q, minEntry := p } else e
  if pfLt e1.maxV q then { e1 with maxV := q, maxEntry := p } else e1

/-- Update the per-column stats dict for one observed numeric value. -/
def updateColStats (stats : List (String × Extrema)) (col : String) (q : PyFloat)
    (p : Nat × Row) : List (String × Extrema) :=
  if stats.any (fun e => e.1 = col) then
    stats.map (fun e => if e.1 = col then (e.1, updateExtrema e.2 q p) else e)
  else stats ++ [(col, ⟨q, p, q, p⟩)]

/-- `self.outlier_columns or columns`. -/
def colsToCheck (keyCols : Option (List String)) (columns : List String) : List String :=
  match keyCols with
  | some ks => if ks.isEmpty then columns else ks
  | none => columns

/-- The inner per-row loop over the checked columns. -/
def updateRowStats (checked : List String) (stats : List (String × Extrema))
    (p : Nat × Row) : List (String × Extrema) :=
  checked.foldl (fun st col =>
    if rowHas p.2 col then
      match (rowGet p.2 col).bind getNumericValue with
      | some q => updateColStats st col q p
      | none => st
    else st) stats

/-- The `column_stats` dict after phase 1 of `OutlierSampler.sample`. -/
def outlierStats (keyCols : Option (List String)) (columns : List String)
    (rows : List Row) : List (String × Extrema) :=
  rows.enum.foldl (fun st p => updateRowStats (colsToCheck keyCols columns) st p) []

/-- One iteration of the phase-2 loop: add the min-carrying then the
max-carrying row, each only when its identity is not yet present. -/
def orStep (acc : List (Nat × Row)) (e : String × Extrema) : List (Nat × Row) :=
  let acc1 := if acc.any (fun p => p.1 = e.2.minEntry.1) then acc else acc ++ [e.2.minEntry]
  if acc1.any (fun p => p.1 = e.2.maxEntry.1) then acc1 else acc1 ++ [e.2.maxEntry]

/-- Phase 2: collect the min/max-carrying rows, deduplicated by row
identity. -/
def outlierRowsOf (stats : List (String × Extrema)) : List (Nat × Row) :=
  stats.foldl orStep []

/-- `OutlierSampler.sample`. -/
def outlierSample {ρ : Type} (R : RngOps ρ) (r0 : ρ) (keyCols : Option (List String))
    (T : Nat) (columns : List String) (rows : List Row) : List Row :=
  let all := rows.enum
  let stats := outlierStats keyCols columns rows
  if all.isEmpty then []
  else if all.length ≤ T then rows
  else
    let outliers := outlierRowsOf stats
    let pr : List (Nat × Row) × ρ :=
      if 0 < (T : Int) - outliers.length then
        let nonOut := all.filter (fun p => ¬ outliers.any (fun q => q.1 = p.1))
        if nonOut.isEmpty then (outliers, r0)
        else
          let cnt := min (T - outliers.length) nonOut.length
          let s := R.sampleK r0 nonOut cnt
          (outliers ++ s.1, s.2)
      else (outliers, r0)
    let sh := R.shuffle pr.2 pr.1
    (sh.1.take T).map Prod.snd

/-! ### Composite sampler (`composite_sampler.py`) -/

/-- `CompositeSampler.sample`: thread the row stream through the
sub-samplers in list order; the trailing yield loop passes rows through
unchanged. -/
def compositeSample (samplers : List (List Row → List Row)) (rows : List Row) : List Row :=
  samplers.foldl (fun cur s => s cur) rows

/-! ### Auxiliary definitions used by the verification -/

/-- well-formedness of a privacy rule per the spec data model -/
def ruleWf (rule : PrivacyRule) : Prop :=
  (rule.mask_type = "hash" ∨ rule.mask_type = "redact" ∨ rule.mask_type = "truncate" ∨
    rule.mask_type = "bucket") ∧
  (rule.mask_type = "hash" →
    rule.mask_params.algorithm.getD "sha256" = "sha256" ∨
    rule.mask_params.algorithm.getD "sha256" = "sha1" ∨
    rule.mask_params.algorithm.getD "sha256" = "md5") ∧
  (rule.mask_type = "bucket" → rule.mask_params.bucket_size.getD 10 ≠ 0)

/-- An observation of the outlier scan: a checked column, the numeric
value found there, and the (index-tagged) row carrying it. -/
abbrev Obs := String × PyFloat × (Nat × Row)

/-- The observations one row contributes, in checked-column order. -/
def obsOf (checked : List String) (p : Nat × Row) : List Obs :=
  checked.filterMap (fun col =>
    if rowHas p.2 col then
      match (rowGet p.2 col).bind getNumericValue with
      | some q => some (col, q, p)
      | none => none
    else none)

/-- Folding one observation into the column stats dict. -/
def obsStep (st : List (String × Extrema)) (o : Obs) : List (String × Extrema) :=
  updateColStats st o.1 o.2.1 o.2.2

/-- The invariant of the outlier scan: every tracked entry's extremes
are observations whose rows carry them, they bound every observation of
that column, and every observed column is tracked. -/
def statsInv (os : List Obs) (st : List (String × Extrema)) : Prop :=
  (∀ c e, (c, e) ∈ st →
    (c, e.minV, e.minEntry) ∈ os ∧ (c, e.maxV, e.maxEntry) ∈ os ∧
    ∀ o ∈ os, o.1 = c → pfLe e.minV o.2.1 = true ∧ pfLe o.2.1 e.maxV = true) ∧
  (∀ o ∈ os, ∃ e, (o.1, e) ∈ st)

/-! ## Helper lemmas -/

/-- The running maximum of `pyMaxBySnd` is an element of the inputs and
dominates all counts. -/
lemma foldl_max_spec (l : List (TypeGuess × Nat)) :
    ∀ b : TypeGuess × Nat,
      (l.foldl (fun best p => if p.2 > best.2 then p else best) b = b ∨
        l.foldl (fun best p => if p.2 > best.2 then p else best) b ∈ l) ∧
      b.2 ≤ (l.foldl (fun best p => if p.2 > best.2 then p else best) b).2 ∧
      ∀ p ∈ l, p.2 ≤ (l.foldl (fun best p => if p.2 > best.2 then p else best) b).2 := by
  induction l with
  | nil => simp
  | cons x xs ih =>
    intro b
    simp only [List.foldl_cons]
    by_cases h : x.2 > b.2
    · simp only [if_pos h]
      obtain ⟨hmem, hle, hall⟩ := ih x
      refine ⟨?_, ?_, ?_⟩
      · rcases hmem with h1 | h1
        · exact Or.inr (by simp [h1])
        · exact Or.inr (List.mem_cons_of_mem _ h1)
      · exact le_trans (le_of_lt h) hle
      · intro p hp
        rcases List.mem_cons.mp hp with rfl | hp
        · exact hle
        · exact hall p hp
    · simp only [if_neg h]
      obtain ⟨hmem, hle, hall⟩ := ih b
      refine ⟨?_, hle, ?_⟩
      · rcases hmem with h1 | h1
        · exact Or.inl h1
        · exact Or.inr (List.mem_cons_of_mem _ h1)
      · intro p hp
        rcases List.mem_cons.mp hp with rfl | hp
        · exact le_trans (Nat.le_of_not_lt h) hle
        · exact hall p hp

/-- contracts of `takeRng` used to discharge witnesses -/
lemma takeRng_randint_le : ∀ (r : Unit) (n : Nat), (takeRng.randint r n).1 ≤ n := by
  intro r n; exact Nat.zero_le n

lemma takeRng_sampleK_spec : ∀ {α : Type} (r : Unit) (l : List α) (k : Nat), k ≤ l.length →
    ((takeRng.sampleK r l k).1.length = k ∧ ∀ x ∈ (takeRng.sampleK r l k).1, x ∈ l) := by
  intro α r l k hk
  constructor
  · simpa [takeRng] using Nat.min_eq_left hk
  · intro x hx
    exact List.mem_of_mem_take hx

lemma takeRng_shuffle_perm : ∀ {α : Type} (r : Unit) (l : List α),
    ((takeRng.shuffle r l).1).Perm l := by
  intro α r l; exact List.Perm.refl l

/-! ## Claims -/

/-- C4: the claim states the content rules run in the order JSON object →
`INSERT\s+INTO` → comma/newline tabular.  The source instead checks the
comma/newline rule before the SQL rule, and performs the `INSERT\s+INTO`
search on the lower-cased fragment with an upper-case pattern, which can
never match: a pure INSERT fragment is detected as `unknown`, and an
INSERT fragment containing a comma and a newline as `csv`. -/
theorem detect_format_content_rules_bug :
    detectFormat "data.txt" (some "INSERT INTO t (a) VALUES (1)") = FormatType.unknown ∧
    detectFormat "dump.txt" (some "INSERT INTO t (a,b) VALUES (1,2)\n") = FormatType.csv ∧
    searchInsertInto "INSERT INTO t (a) VALUES (1)".data = true ∧
    searchInsertInto (pyLower "INSERT INTO t (a) VALUES (1)").data = false := by
  exact ⟨by decide, by decide, by decide, by decide⟩

/-- C5 counterexample: an unquoted token in exponent notation without a
decimal point is parseable as a float, yet `_parse_value` decodes it as
raw text — refuting the claimed int-then-float fallback order. -/
theorem sql_parse_value_exponent_cx :
    parseValue "1e5" = Value.text "1e5" ∧
    (∀ q : PyFloat, parseValue "1e5" ≠ Value.float q) ∧
    pyFloatParse "1e5" = some (PyFloat.ofInt 100000) := by
  refine ⟨by decide, ?_, by decide⟩
  intro q h
  rw [show parseValue "1e5" = Value.text "1e5" from by decide] at h
  exact Value.noConfusion h

/-- C5 amended: after the NULL and quoting checks, `_parse_value`
branches on whether the token contains a dot: with a dot only a float
parse is attempted, without one only an integer parse; a failed parse
falls through to the boolean check and then to raw text — so a
float-parseable token without a dot decodes to text. -/
theorem sql_parse_value_dot_branch (s : String) (v : List Char)
    (hv : v = pyStripChars s.data)
    (hnull : v.map Char.toUpper ≠ ['N', 'U', 'L', 'L'])
    (hq : ((v.head? = some '\'' && v.getLast? = some '\'') ||
        (v.head? = some '"' && v.getLast? = some '"')) = false) :
    (∀ q : PyFloat, v.contains '.' = true → pyFloatParseChars v = some q →
       parseValue s = Value.float q) ∧
    (v.contains '.' = false → pyIntParseChars v = none →
       v.map Char.toUpper ≠ ['T', 'R', 'U', 'E'] →
       v.map Char.toUpper ≠ ['F', 'A', 'L', 'S', 'E'] →
       parseValue s = Value.text ⟨v⟩) := by
  constructor
  · intro q hdot hparse
    simp only [parseValue, ← hv, if_neg hnull, hq, Bool.false_eq_true, if_false, hdot,
      if_true, hparse]
    rfl
  · intro hdot hint htrue hfalse
    simp only [parseValue, ← hv, if_neg hnull, hq, Bool.false_eq_true, if_false, hdot,
      hint, if_neg htrue, if_neg hfalse]
    rfl

/-- C5 amended, witness: `1e5` decodes to text; `2.5` decodes to the
float 5/2. -/
theorem sql_parse_value_dot_branch_w :
    parseValue "1e5" = Value.text "1e5" ∧ parseValue " 2.5 " = Value.float ⟨25, 10⟩ := by
  constructor
  · exact (sql_parse_value_dot_branch "1e5" ['1', 'e', '5'] (by decide) (by decide)
      (by decide)).2 (by decide) (by decide) (by decide) (by decide)
  · exact (sql_parse_value_dot_branch " 2.5 " ['2', '.', '5'] (by decide) (by decide)
      (by decide)).1 ⟨25, 10⟩ (by decide) (by decide)

/-- C6 counterexample: a `PrivacyRule` with the unknown mask kind `drop`
is constructed without any validation, and applying that kind to a value
at row time raises `ValueError` inside `apply_mask` — refuting both
halves of the claim. -/
theorem mask_kind_row_time_failure_cx :
    (PrivacyRule.mk "c" "drop" {}).mask_type = "drop" ∧
    applyMask ⟨fun s => s, fun s => s, fun s => s⟩ (Value.text "x") "drop" {} =
      Except.error "Unknown mask type: drop" := by
  exact ⟨rfl, rfl⟩

/-- C6 amended: mask kinds are validated inside `apply_mask` at row
time, not at rule construction: an unknown kind errors on every value,
a known kind succeeds on every value given well-formed parameters, and
an unsupported hash algorithm errors at row time on non-null values. -/
theorem apply_mask_row_time_validation (H : HashFns) (v : Value) (kind : String)
    (params : MaskParams) :
    ((kind ≠ "hash" ∧ kind ≠ "redact" ∧ kind ≠ "truncate" ∧ kind ≠ "bucket") →
       applyMask H v kind params = Except.error ("Unknown mask type: " ++ kind)) ∧
    (kind = "hash" →
       (params.algorithm.getD "sha256" = "sha256" ∨ params.algorithm.getD "sha256" = "sha1" ∨
         params.algorithm.getD "sha256" = "md5") →
       (applyMask H v kind params).isOk = true) ∧
    (kind = "hash" → v ≠ Value.null →
       params.algorithm.getD "sha256" ≠ "sha256" → params.algorithm.getD "sha256" ≠ "sha1" →
       params.algorithm.getD "sha256" ≠ "md5" →
       (applyMask H v kind params).isOk = false) ∧
    (kind = "redact" → (applyMask H v kind params).isOk = true) ∧
    (kind = "truncate" → (applyMask H v kind params).isOk = true) ∧
    (kind = "bucket" → params.bucket_size.getD 10 ≠ 0 →
       (applyMask H v kind params).isOk = true) := by
  refine ⟨?_, ?_, ?_, ?_, ?_, ?_⟩
  · rintro ⟨h1, h2, h3, h4⟩
    simp only [applyMask, if_neg h1, if_neg h2, if_neg h3, if_neg h4]
  · rintro rfl halg
    by_cases hn : v = Value.null
    · subst hn; rfl
    · rcases halg with h | h | h <;> · simp only [applyMask, hashMask, if_neg hn, h]; rfl
  · rintro rfl hn h1 h2 h3
    simp only [applyMask, hashMask, if_neg hn, if_neg h1, if_neg h2, if_neg h3]
    rfl
  · rintro rfl
    rfl
  · rintro rfl
    rfl
  · rintro rfl hb
    simp only [applyMask]
    by_cases hn : v = Value.null
    · subst hn; rfl
    · simp only [bucketMask, if_neg hn]
      cases hf : pyFloatOfValue v with
      | none => rfl
      | some q => simp only [if_neg hb]; rfl

/-- C6 amended, witness: an unknown kind errors at row time; known kinds
succeed with default parameters. -/
theorem apply_mask_row_time_validation_w :
    applyMask ⟨fun s => s, fun s => s, fun s => s⟩ (Value.int 7) "bogus" {} =
      Except.error "Unknown mask type: bogus" ∧
    (applyMask ⟨fun s => s, fun s => s, fun s => s⟩ (Value.int 7) "hash" {}).isOk = true ∧
    (applyMask ⟨fun s => s, fun s => s, fun s => s⟩ (Value.int 7) "bucket" {}).isOk = true := by
  refine ⟨?_, ?_, ?_⟩
  · have h := (apply_mask_row_time_validation ⟨fun s => s, fun s => s, fun s => s⟩
      (Value.int 7) "bogus" {}).1 ⟨by decide, by decide, by decide, by decide⟩
    simpa using h
  · exact (apply_mask_row_time_validation ⟨fun s => s, fun s => s, fun s => s⟩
      (Value.int 7) "hash" {}).2.1 rfl (Or.inl (by decide))
  · exact (apply_mask_row_time_validation ⟨fun s => s, fun s => s, fun s => s⟩
      (Value.int 7) "bucket" {}).2.2.2.2.2 rfl (by decide)

/-- C8 counterexample: a column whose first 100 positions are all null
is classified `unknown` even though a later value would classify as
`integer` — nulls do consume the 100-value budget. -/
theorem infer_column_type_null_window_cx :
    inferColumnType (List.replicate 100 Value.null ++ [Value.int 5]) = TypeGuess.unknown ∧
    inferType (Value.int 5) = TypeGuess.integer := by
  exact ⟨by decide, rfl⟩

/-- C8 amended: type inference looks at the first 100 values including
nulls; nulls inside that window are skipped for counting; the result is
a modal tag of the counted window (`unknown` when the window holds no
non-null value). -/
theorem infer_column_type_window_modal (values : List Value) (h : values ≠ []) :
    (tagCounts (inferenceWindow values) = [] → inferColumnType values = TypeGuess.unknown) ∧
    (tagCounts (inferenceWindow values) ≠ [] →
      ∃ n : Nat, (inferColumnType values, n) ∈ tagCounts (inferenceWindow values) ∧
        ∀ p ∈ tagCounts (inferenceWindow values), p.2 ≤ n) := by
  have hrw : inferColumnType values =
      match pyMaxBySnd (tagCounts (inferenceWindow values)) with
      | none => TypeGuess.unknown
      | some p => p.1 := by
    simp only [inferColumnType, if_neg h, inferenceWindow, tagCounts]
  constructor
  · intro hc
    rw [hrw, hc]
    rfl
  · intro hc
    obtain ⟨c, cs, hl⟩ := List.exists_cons_of_ne_nil hc
    rw [hrw, hl]
    simp only [pyMaxBySnd]
    obtain ⟨hmem, hle, hall⟩ := foldl_max_spec cs c
    refine ⟨(cs.foldl (fun best p => if p.2 > best.2 then p else best) c).2, ?_, ?_⟩
    · rw [Prod.mk.eta]
      rcases hmem with h1 | h1
      · rw [h1]; exact List.mem_cons_self c cs
      · exact List.mem_cons_of_mem _ h1
    · intro p hp
      rcases List.mem_cons.mp hp with rfl | hp
      · exact hle
      · exact hall p hp

/-- C8 amended, witness at a two-value column. -/
theorem infer_column_type_window_modal_w :
    ∃ n : Nat, (inferColumnType [Value.null, Value.int 7], n) ∈
        tagCounts (inferenceWindow [Value.null, Value.int 7]) ∧
      ∀ p ∈ tagCounts (inferenceWindow [Value.null, Value.int 7]), p.2 ≤ n := by
  exact (infer_column_type_window_modal [Value.null, Value.int 7] (by decide)).2 (by decide)

/-- C9: `CompositeSampler.sample` threads the stream through the
sub-samplers in list order; an empty chain passes every upstream row
through unchanged, so with target 1 and two upstream rows the empty
chain emits more than the target. -/
theorem composite_sampler_threading :
    (∀ rows : List Row, compositeSample [] rows = rows) ∧
    (∀ (s : List Row → List Row) (ss : List (List Row → List Row)) (rows : List Row),
        compositeSample (s :: ss) rows = compositeSample ss (s rows)) ∧
    (compositeSample [] [[("a", Value.int 1)], [("a", Value.int 2)]]).length > 1 := by
  exact ⟨fun rows => rfl, fun s ss rows => rfl, by decide⟩

/-- C1: with identical input rows, configuration and seed, the emitted
sequence of the time-aware sampler still depends on the process hash
salt (Python's `hash(str)`) used for non-numeric text time values: two
salts that order `"x"` and `"y"` differently yield different outputs. -/
theorem time_sampler_hash_salt_nondeterminism :
    timeSample (fun s => if s = "y" then 0 else 1) takeRng () (some "t") 2
        [[("t", Value.text "x")], [("t", Value.text "y")]] ≠
      timeSample (fun s => if s = "x" then 0 else 1) takeRng () (some "t") 2
        [[("t", Value.text "x")], [("t", Value.text "y")]] := by
  decide

/-- minimum/maximum propagation of `ColumnStats.update` over booleans -/
lemma update_bool_state (st : ColumnStats) (a b c : Bool)
    (hmin : st.min_value = some (Value.bool a)) (hmax : st.max_value = some (Value.bool b)) :
    (st.update (Value.bool c)).min_value = some (Value.bool (a && c)) ∧
    (st.update (Value.bool c)).max_value = some (Value.bool (b || c)) := by
  obtain ⟨nm, tg, nc, tc, mn, mx, tv, uc⟩ := st
  dsimp only at hmin hmax
  subst hmin
  subst hmax
  cases a <;> cases b <;> cases c <;>
    simp [ColumnStats.update, pyNum, isPyNumeric, pfLt, PyFloat.ofInt,
      apply_ite ColumnStats.min_value, apply_ite ColumnStats.max_value]

lemma update_bool_init (name : String) (c : Bool) :
    (ColumnStats.update { column_name := name } (Value.bool c)).min_value =
      some (Value.bool c) ∧
    (ColumnStats.update { column_name := name } (Value.bool c)).max_value =
      some (Value.bool c) := by
  cases c <;> exact ⟨rfl, rfl⟩

lemma fold_update_bool (bs : List Bool) :
    ∀ (st : ColumnStats) (a b : Bool),
      st.min_value = some (Value.bool a) → st.max_value = some (Value.bool b) →
      ((bs.map Value.bool).foldl ColumnStats.update st).min_value =
          some (Value.bool (a && bs.all (fun x => x))) ∧
      ((bs.map Value.bool).foldl ColumnStats.update st).max_value =
          some (Value.bool (b || bs.any (fun x => x))) := by
  induction bs with
  | nil =>
    intro st a b h1 h2
    simpa using ⟨h1, h2⟩
  | cons c cs ih =>
    intro st a b h1 h2
    simp only [List.map_cons, List.foldl_cons, List.all_cons, List.any_cons]
    obtain ⟨g1, g2⟩ := update_bool_state st a b c h1 h2
    obtain ⟨r1, r2⟩ := ih _ (a && c) (b || c) g1 g2
    constructor
    · rw [r1, Bool.and_assoc]
    · rw [r2, Bool.or_assoc]

/-- C10: booleans participate in the numeric min/max of
`ColumnStats.update` (`True` compares as 1, `False` as 0), so a column
holding only booleans acquires non-null `min_value`/`max_value`, which
`generate_manifest` then emits in the per-column statistics block. -/
theorem column_stats_boolean_minmax (name : String) (bs : List Bool) (h : bs ≠ []) :
    ((bs.map Value.bool).foldl ColumnStats.update { column_name := name }).min_value =
        some (Value.bool (bs.all (fun x => x))) ∧
    ((bs.map Value.bool).foldl ColumnStats.update { column_name := name }).max_value =
        some (Value.bool (bs.any (fun x => x))) ∧
    "min_value" ∈ (manifestColumnEntry ((bs.map Value.bool).foldl ColumnStats.update
        { column_name := name })).map Prod.fst ∧
    "max_value" ∈ (manifestColumnEntry ((bs.map Value.bool).foldl ColumnStats.update
        { column_name := name })).map Prod.fst := by
  obtain ⟨c, cs, rfl⟩ := List.exists_cons_of_ne_nil h
  simp only [List.map_cons, List.foldl_cons, List.all_cons, List.any_cons]
  obtain ⟨g1, g2⟩ := update_bool_init name c
  obtain ⟨r1, r2⟩ := fold_update_bool cs _ c c g1 g2
  refine ⟨r1, r2, ?_, ?_⟩
  · simp [manifestColumnEntry, r1, r2]
  · simp [manifestColumnEntry, r1, r2]

/-- reservoir length invariant of the `RandomSampler.sample` loop -/
lemma reservoirRun_length {ρ : Type} (R : RngOps ρ) (T : Nat) (rows : List Row) :
    ∀ (res : List Row) (r : ρ) (i : Nat), res.length ≤ T →
      (rows.foldl (reservoirStep R T) (res, r, i)).1.length = min T (res.length + rows.length) := by
  induction rows with
  | nil =>
    intro res r i h
    simp [Nat.min_eq_right h]
  | cons row rows ih =>
    intro res r i h
    simp only [List.foldl_cons]
    by_cases hlt : res.length < T
    · have hstep : reservoirStep R T (res, r, i) row = (res ++ [row], r, i + 1) := by
        simp [reservoirStep, hlt]
      rw [hstep, ih (res ++ [row]) r (i + 1) (by simp; omega)]
      simp [List.length_append, List.length_cons]
      omega
    · have heq : res.length = T := le_antisymm h (Nat.le_of_not_lt hlt)
      by_cases hidx : (R.randint r i).1 < T
      · have hstep : reservoirStep R T (res, r, i) row =
            (res.set (R.randint r i).1 row, (R.randint r i).2, i + 1) := by
          simp [reservoirStep, hlt, hidx]
        rw [hstep, ih _ _ _ (by simp [List.length_set, heq])]
        simp [List.length_set, heq, List.length_cons]
      · have hstep : reservoirStep R T (res, r, i) row = (res, (R.randint r i).2, i + 1) := by
          simp [reservoirStep, hlt, hidx]
        rw [hstep, ih _ _ _ h]
        simp [heq, List.length_cons]

/-- every reservoir element came from the initial buffer or the stream -/
lemma reservoirRun_mem {ρ : Type} (R : RngOps ρ) (T : Nat) (rows : List Row) :
    ∀ (res : List Row) (r : ρ) (i : Nat) (x : Row),
      x ∈ (rows.foldl (reservoirStep R T) (res, r, i)).1 → x ∈ res ∨ x ∈ rows := by
  induction rows with
  | nil =>
    intro res r i x hx
    exact Or.inl hx
  | cons row rows ih =>
    intro res r i x hx
    simp only [List.foldl_cons] at hx
    by_cases hlt : res.length < T
    · rw [show reservoirStep R T (res, r, i) row = (res ++ [row], r, i + 1) from by
        simp [reservoirStep, hlt]] at hx
      rcases ih _ _ _ _ hx with hm | hm
      · rcases List.mem_append.mp hm with hm | hm
        · exact Or.inl hm
        · exact Or.inr (by simp at hm; simp [hm])
      · exact Or.inr (List.mem_cons_of_mem _ hm)
    · by_cases hidx : (R.randint r i).1 < T
      · rw [show reservoirStep R T (res, r, i) row =
            (res.set (R.randint r i).1 row, (R.randint r i).2, i + 1) from by
          simp [reservoirStep, hlt, hidx]] at hx
        rcases ih _ _ _ _ hx with hm | hm
        · rcases List.mem_or_eq_of_mem_set hm with hm | hm
          · exact Or.inl hm
          · exact Or.inr (by simp [hm])
        · exact Or.inr (List.mem_cons_of_mem _ hm)
      · rw [show reservoirStep R T (res, r, i) row = (res, (R.randint r i).2, i + 1) from by
          simp [reservoirStep, hlt, hidx]] at hx
        rcases ih _ _ _ _ hx with hm | hm
        · exact Or.inl hm
        · exact Or.inr (List.mem_cons_of_mem _ hm)

/-- when everything fits, the loop just appends -/
lemma reservoirRun_small {ρ : Type} (R : RngOps ρ) (T : Nat) (rows : List Row) :
    ∀ (res : List Row) (r : ρ) (i : Nat), res.length + rows.length ≤ T →
      (rows.foldl (reservoirStep R T) (res, r, i)).1 = res ++ rows := by
  induction rows with
  | nil =>
    intro res r i _
    simp
  | cons row rows ih =>
    intro res r i h
    simp only [List.length_cons] at h
    have hlt : res.length < T := by omega
    simp only [List.foldl_cons]
    rw [show reservoirStep R T (res, r, i) row = (res ++ [row], r, i + 1) from by
      simp [reservoirStep, hlt]]
    rw [ih (res ++ [row]) r (i + 1) (by simp; omega)]
    simp

/-- the loop counter counts the processed rows -/
lemma reservoirRun_count {ρ : Type} (R : RngOps ρ) (T : Nat) (rows : List Row) :
    ∀ (res : List Row) (r : ρ) (i : Nat),
      (rows.foldl (reservoirStep R T) (res, r, i)).2.2 = i + rows.length := by
  induction rows with
  | nil =>
    intro res r i
    simp
  | cons row rows ih =>
    intro res r i
    simp only [List.foldl_cons]
    have hstep : (reservoirStep R T (res, r, i) row).2.2 = i + 1 := by
      simp only [reservoirStep]
      split
      · rfl
      · split <;> rfl
    have h3 : (rows.foldl (reservoirStep R T) (reservoirStep R T (res, r, i) row)).2.2 =
        (reservoirStep R T (res, r, i) row).2.2 + rows.length :=
      ih (reservoirStep R T (res, r, i) row).1
        (reservoirStep R T (res, r, i) row).2.1 (reservoirStep R T (res, r, i) row).2.2
    rw [hstep] at h3
    rw [h3, List.length_cons]
    omega

/-- C2: the random sampler is Algorithm R: it emits exactly
`min(T, N)` rows, all drawn from the input; when `N ≤ T` it emits all
rows in arrival order; the loop counter equals the number of processed
rows (so the i-th incoming row is processed with `count = i`); and on a
full buffer the step draws `randint(0, i)` — a value in `[0, i]` — and
replaces the slot at that index exactly when the draw is `< T`. -/
theorem random_sampler_algorithm_r {ρ : Type} (R : RngOps ρ) (r0 : ρ) (T : Nat)
    (rows : List Row) (hT : 1 ≤ T)
    (hR : ∀ (r : ρ) (n : Nat), (R.randint r n).1 ≤ n) :
    (randomSample R r0 T rows).length = min T rows.length ∧
    (∀ row ∈ randomSample R r0 T rows, row ∈ rows) ∧
    (rows.length ≤ T → randomSample R r0 T rows = rows) ∧
    (reservoirRun R r0 T rows).2.2 = rows.length ∧
    (∀ (res : List Row) (r : ρ) (i : Nat) (row : Row), res.length = T →
      reservoirStep R T (res, r, i) row =
        (if (R.randint r i).1 < T then res.set (R.randint r i).1 row else res,
         (R.randint r i).2, i + 1) ∧
      (R.randint r i).1 ≤ i) := by
  refine ⟨?_, ?_, ?_, ?_, ?_⟩
  · have h := reservoirRun_length R T rows [] r0 0 (Nat.zero_le T)
    simpa [randomSample, reservoirRun] using h
  · intro row hr
    have h := reservoirRun_mem R T rows [] r0 0 row
      (by simpa [randomSample, reservoirRun] using hr)
    rcases h with h | h
    · cases h
    · exact h
  · intro hle
    have h := reservoirRun_small R T rows [] r0 0 (by simpa using hle)
    simpa [randomSample, reservoirRun] using h
  · have h := reservoirRun_count R T rows [] r0 0
    simpa [reservoirRun] using h
  · intro res r i row hfull
    refine ⟨?_, hR r i⟩
    by_cases hidx : (R.randint r i).1 < T <;>
      simp [reservoirStep, hfull, hidx]

/-- C2 witness: three rows against target 2 fill the reservoir to
exactly 2; two rows against target 5 pass through in arrival order. -/
theorem random_sampler_algorithm_r_w :
    (randomSample takeRng () 2
      [[("a", Value.int 1)], [("a", Value.int 2)], [("a", Value.int 3)]]).length = 2 ∧
    randomSample takeRng () 5 [[("a", Value.int 1)], [("a", Value.int 2)]] =
      [[("a", Value.int 1)], [("a", Value.int 2)]] := by
  constructor
  · have h := (random_sampler_algorithm_r takeRng () 2
      [[("a", Value.int 1)], [("a", Value.int 2)], [("a", Value.int 3)]]
      (by decide) takeRng_randint_le).1
    simpa using h
  · exact (random_sampler_algorithm_r takeRng () 5
      [[("a", Value.int 1)], [("a", Value.int 2)]]
      (by decide) takeRng_randint_le).2.2.1 (by decide)

/-! ### Row helper lemmas for the privacy rule applier -/

lemma rowSet_fst (row : Row) (c : String) (v : Value) :
    (rowSet row c v).map Prod.fst = row.map Prod.fst := by
  induction row with
  | nil => rfl
  | cons p rest ih =>
    by_cases hp : p.1 = c <;> simp [rowSet, hp] <;> simpa [rowSet] using ih

lemma rowGet_cons (p : String × Value) (rest : Row) (c : String) :
    rowGet (p :: rest) c = if p.1 = c then some p.2 else rowGet rest c := by
  by_cases hp : p.1 = c <;> simp [rowGet, List.find?, hp]

lemma rowGet_rowSet_ne (row : Row) (c c' : String) (v : Value) (h : c ≠ c') :
    rowGet (rowSet row c v) c' = rowGet row c' := by
  induction row with
  | nil => rfl
  | cons p rest ih =>
    show rowGet ((if p.1 = c then (p.1, v) else p) :: rowSet rest c v) c' =
      rowGet (p :: rest) c'
    by_cases hp : p.1 = c
    · have hfalse : ¬(p.1 = c') := by rw [hp]; exact h
      rw [if_pos hp, rowGet_cons, rowGet_cons,
        if_neg (show ¬((p.1, v).1 = c') from hfalse), if_neg hfalse]
      exact ih
    · rw [if_neg hp, rowGet_cons, rowGet_cons]
      by_cases hp' : p.1 = c'
      · rw [if_pos hp', if_pos hp']
      · rw [if_neg hp', if_neg hp']
        exact ih

lemma rowGet_of_rowHas (row : Row) (c : String) (h : rowHas row c = true) :
    ∃ v, rowGet row c = some v := by
  induction row with
  | nil => cases h
  | cons p rest ih =>
    rw [rowGet_cons]
    by_cases hp : p.1 = c
    · exact ⟨p.2, by rw [if_pos hp]⟩
    · have h' : rowHas rest c = true := by simpa [rowHas, hp] using h
      obtain ⟨v, hv⟩ := ih h'
      exact ⟨v, by rw [if_neg hp]; exact hv⟩

lemma rowGet_of_not_rowHas (row : Row) (c : String) (h : rowHas row c = false) :
    rowGet row c = none := by
  induction row with
  | nil => rfl
  | cons p rest ih =>
    have hp : ¬(p.1 = c) := by
      intro hc
      simp [rowHas, hc] at h
    have h' : rowHas rest c = false := by
      simpa [rowHas, hp] using h
    rw [rowGet_cons, if_neg hp]
    exact ih h'

lemma rowHas_eq_any_fst (r : Row) (c : String) :
    rowHas r c = (r.map Prod.fst).any (fun s => s = c) := by
  induction r with
  | nil => rfl
  | cons p rest ih =>
    simp only [rowHas, List.any_cons, List.map_cons] at ih ⊢
    rw [ih]

lemma rowHas_of_fst_eq (r1 r2 : Row) (c : String)
    (h : r1.map Prod.fst = r2.map Prod.fst) : rowHas r1 c = rowHas r2 c := by
  rw [rowHas_eq_any_fst, rowHas_eq_any_fst, h]

/-- a well-formed mask application always succeeds -/
lemma applyMask_ok_of_wf (H : HashFns) (v : Value) (kind : String) (params : MaskParams)
    (hk : kind = "hash" ∨ kind = "redact" ∨ kind = "truncate" ∨ kind = "bucket")
    (halg : kind = "hash" → params.algorithm.getD "sha256" = "sha256" ∨
      params.algorithm.getD "sha256" = "sha1" ∨ params.algorithm.getD "sha256" = "md5")
    (hb : kind = "bucket" → params.bucket_size.getD 10 ≠ 0) :
    ∃ w, applyMask H v kind params = .ok w := by
  rcases hk with rfl | rfl | rfl | rfl
  · by_cases hn : v = Value.null
    · subst hn
      exact ⟨.text "", rfl⟩
    · rcases halg rfl with h | h | h
      · exact ⟨.text (H.sha256 (pyStr v)), by simp [applyMask, hashMask, if_neg hn, h]; rfl⟩
      · exact ⟨.text (H.sha1 (pyStr v)), by simp [applyMask, hashMask, if_neg hn, h]; rfl⟩
      · exact ⟨.text (H.md5 (pyStr v)), by simp [applyMask, hashMask, if_neg hn, h]; rfl⟩
  · exact ⟨_, rfl⟩
  · exact ⟨_, rfl⟩
  · by_cases hn : v = Value.null
    · subst hn
      exact ⟨_, rfl⟩
    · simp only [applyMask, bucketMask, if_neg hn]
      cases hf : pyFloatOfValue v with
      | none => exact ⟨_, rfl⟩
      | some q =>
        simp only [if_neg (hb rfl)]
        exact ⟨_, rfl⟩

/-- `applyPrivacyRules` agrees with the raw monadic fold (the empty-list
short circuit returns the same copy of the row). -/
lemma applyPrivacyRules_eq_foldlM (H : HashFns) (row : Row) (rules : List PrivacyRule) :
    applyPrivacyRules H row rules = rules.foldlM (applyRule H) row := by
  cases rules with
  | nil => rfl
  | cons r rs => rfl

/-- splitting a monadic fold over `Except` at an append -/
lemma foldlM_except_append {α β : Type} (f : β → α → Except String β) (l1 l2 : List α) :
    ∀ b, (l1 ++ l2).foldlM f b = (l1.foldlM f b).bind (fun m => l2.foldlM f m) := by
  induction l1 with
  | nil =>
    intro b
    rfl
  | cons x xs ih =>
    intro b
    simp only [List.cons_append, List.foldlM_cons]
    cases hfx : f b x with
    | error e => rfl
    | ok m => simpa using ih m

/-- one well-formed rule applies cleanly: it succeeds, preserves the key
list, and touches no column but its own -/
lemma applyRule_wf (H : HashFns) (acc : Row) (rule : PrivacyRule) (hwf : ruleWf rule) :
    ∃ out, applyRule H acc rule = .ok out ∧
      out.map Prod.fst = acc.map Prod.fst ∧
      ∀ c, rule.column ≠ c → rowGet out c = rowGet acc c := by
  by_cases hhas : rowHas acc rule.column
  · obtain ⟨v, hv⟩ := rowGet_of_rowHas acc rule.column hhas
    obtain ⟨w, hw⟩ :=
      applyMask_ok_of_wf H v rule.mask_type rule.mask_params hwf.1 hwf.2.1 hwf.2.2
    refine ⟨rowSet acc rule.column w, ?_, rowSet_fst acc rule.column w, ?_⟩
    · simp only [applyRule, if_pos hhas, hv, hw]
      rfl
    · intro c hc
      exact rowGet_rowSet_ne acc rule.column c w hc
  · exact ⟨acc, by simp [applyRule, hhas], rfl, fun c _ => rfl⟩

/-- folding well-formed rules succeeds and only touches named columns -/
lemma privacy_fold_wf (H : HashFns) (rules : List PrivacyRule) :
    ∀ row, (∀ rule ∈ rules, ruleWf rule) →
      ∃ out, rules.foldlM (applyRule H) row = .ok out ∧
        out.map Prod.fst = row.map Prod.fst ∧
        ∀ c, (∀ rule ∈ rules, rule.column ≠ c) → rowGet out c = rowGet row c := by
  induction rules with
  | nil =>
    intro row _
    exact ⟨row, rfl, rfl, fun c _ => rfl⟩
  | cons rule rs ih =>
    intro row hwf
    obtain ⟨mid, hmid, hkeys, hframe⟩ :=
      applyRule_wf H row rule (hwf rule (List.mem_cons_self rule rs))
    obtain ⟨out, hout, hkeys2, hframe2⟩ :=
      ih mid (fun r hr => hwf r (List.mem_cons_of_mem _ hr))
    refine ⟨out, ?_, hkeys2.trans hkeys, ?_⟩
    · simp only [List.foldlM_cons, hmid]
      simpa using hout
    · intro c hc
      exact (hframe2 c (fun r hr => hc r (List.mem_cons_of_mem _ hr))).trans
        (hframe c (hc rule (List.mem_cons_self rule rs)))

/-- C7: with well-formed rules, `apply_privacy_rules` returns a new row
with the same ordered key list in which every column not named by any
rule keeps the source value, rules naming absent columns change nothing
(an absent column stays absent), and the rules act in configured order
(any split of the list composes sequentially).  The source row is
untouched: the model is pure, mirroring the shallow `row.copy()`. -/
theorem apply_privacy_rules_frame (H : HashFns) (row : Row) (rules : List PrivacyRule)
    (hwf : ∀ rule ∈ rules, ruleWf rule) :
    ∃ out, applyPrivacyRules H row rules = .ok out ∧
      out.map Prod.fst = row.map Prod.fst ∧
      (∀ c, (∀ rule ∈ rules, rule.column ≠ c) → rowGet out c = rowGet row c) ∧
      (∀ c, rowHas row c = false → rowGet out c = none) ∧
      (∀ rs1 rs2, rules = rs1 ++ rs2 →
        ∃ mid, applyPrivacyRules H row rs1 = .ok mid ∧
          applyPrivacyRules H mid rs2 = .ok out) := by
  obtain ⟨out, hout, hkeys, hframe⟩ := privacy_fold_wf H rules row hwf
  refine ⟨out, (applyPrivacyRules_eq_foldlM H row rules).trans hout, hkeys, hframe, ?_, ?_⟩
  · intro c hc
    exact rowGet_of_not_rowHas out c ((rowHas_of_fst_eq out row c hkeys).trans hc)
  · rintro rs1 rs2 rfl
    obtain ⟨mid, hmid, _, _⟩ :=
      privacy_fold_wf H rs1 row (fun r hr => hwf r (List.mem_append_left _ hr))
    refine ⟨mid, (applyPrivacyRules_eq_foldlM H row rs1).trans hmid, ?_⟩
    rw [applyPrivacyRules_eq_foldlM]
    rw [foldlM_except_append (applyRule H) rs1 rs2 row, hmid] at hout
    simpa using hout

/-- C7 witness: a redact rule on `email` plus a rule naming an absent
column, applied to a concrete two-column row. -/
theorem apply_privacy_rules_frame_w :
    ∃ out, applyPrivacyRules ⟨fun s => s, fun s => s, fun s => s⟩
        [("email", Value.text "a@b"), ("id", Value.int 1)]
        [⟨"email", "redact", {}⟩, ⟨"missing", "hash", {}⟩] = .ok out ∧
      out.map Prod.fst =
        ([("email", Value.text "a@b"), ("id", Value.int 1)] : Row).map Prod.fst ∧
      (∀ c, (∀ rule ∈ ([⟨"email", "redact", {}⟩, ⟨"missing", "hash", {}⟩] :
          List PrivacyRule), rule.column ≠ c) →
        rowGet out c = rowGet [("email", Value.text "a@b"), ("id", Value.int 1)] c) ∧
      (∀ c, rowHas [("email", Value.text "a@b"), ("id", Value.int 1)] c = false →
        rowGet out c = none) ∧
      (∀ rs1 rs2, ([⟨"email", "redact", {}⟩, ⟨"missing", "hash", {}⟩] :
          List PrivacyRule) = rs1 ++ rs2 →
        ∃ mid, applyPrivacyRules ⟨fun s => s, fun s => s, fun s => s⟩
            [("email", Value.text "a@b"), ("id", Value.int 1)] rs1 = .ok mid ∧
          applyPrivacyRules ⟨fun s => s, fun s => s, fun s => s⟩ mid rs2 = .ok out) := by
  apply apply_privacy_rules_frame
  intro rule hr
  rcases List.mem_cons.mp hr with rfl | hr
  · exact ⟨Or.inr (Or.inl rfl), fun h => absurd h (by decide), fun h => absurd h (by decide)⟩
  · rcases List.mem_cons.mp hr with rfl | hr
    · exact ⟨Or.inl rfl, fun _ => Or.inl rfl, fun h => absurd h (by decide)⟩
    · exact absurd hr (List.not_mem_nil rule)

/-! ### Order lemmas for the fraction model (used by the outlier sampler) -/

lemma pfLe_refl (a : PyFloat) : pfLe a a = true := by
  simp [pfLe]

lemma pfLe_of_pfLt {a b : PyFloat} (h : pfLt a b = true) : pfLe a b = true := by
  simp only [pfLt, decide_eq_true_eq] at h
  simp only [pfLe, decide_eq_true_eq]
  omega

lemma pfLe_of_not_pfLt {a b : PyFloat} (h : pfLt a b = false) : pfLe b a = true := by
  simp only [pfLt, decide_eq_false_iff_not, not_lt] at h
  simp only [pfLe, decide_eq_true_eq]
  omega

lemma pfLe_trans {a b c : PyFloat} (hb : 0 < b.den)
    (h1 : pfLe a b = true) (h2 : pfLe b c = true) : pfLe a c = true := by
  simp only [pfLe, decide_eq_true_eq] at h1 h2 ⊢
  have hc : (0 : Int) ≤ (c.den : Int) := Int.natCast_nonneg _
  have ha : (0 : Int) ≤ (a.den : Int) := Int.natCast_nonneg _
  have hbpos : (0 : Int) < (b.den : Int) := by exact_mod_cast hb
  have k1 := mul_le_mul_of_nonneg_right h1 hc
  have k2 := mul_le_mul_of_nonneg_right h2 ha
  have k3 : a.num * (c.den : Int) * (b.den : Int) ≤ c.num * (a.den : Int) * (b.den : Int) := by
    nlinarith [k1, k2]
  exact le_of_mul_le_mul_right k3 hbpos

lemma pow10_pos (n : Nat) : 0 < pow10 n := by
  induction n with
  | zero => decide
  | succ n ih =>
    simp only [pow10]
    omega

lemma applySign_den (neg : Bool) (m : PyFloat) : (applySign neg m).den = m.den := by
  cases neg <;> rfl

lemma mantVal_den_pos (ip : List Char) (fp : Option (List Char)) : 0 < (mantVal ip fp).den := by
  cases fp <;> simp [mantVal, pow10_pos]

lemma pyFloatParseChars_den_pos (l : List Char) (q : PyFloat)
    (h : pyFloatParseChars l = some q) : 0 < q.den := by
  simp only [pyFloatParseChars] at h
  split at h
  · split at h
    · rw [Option.some_inj] at h
      subst h
      rw [applySign_den]
      exact mantVal_den_pos _ _
    · split at h
      · rw [Option.some_inj] at h
        subst h
        rw [applySign_den]
        simp only [applyExp]
        split
        · exact mantVal_den_pos _ _
        · exact Nat.mul_pos (mantVal_den_pos _ _) (pow10_pos _)
      · cases h
  · cases h

lemma getNumericValue_den_pos (v : Value) (q : PyFloat)
    (hv : ∀ q' : PyFloat, v = Value.float q' → 0 < q'.den)
    (h : getNumericValue v = some q) : 0 < q.den := by
  cases v with
  | null => cases h
  | int n =>
    rw [show getNumericValue (Value.int n) = some (PyFloat.ofInt n) from rfl,
      Option.some_inj] at h
    subst h
    exact Nat.one_pos
  | float q' =>
    rw [show getNumericValue (Value.float q') = some q' from rfl, Option.some_inj] at h
    subst h
    exact hv _ rfl
  | bool v =>
    rw [show getNumericValue (Value.bool v) = some (PyFloat.ofInt (if v then 1 else 0))
      from rfl, Option.some_inj] at h
    subst h
    exact Nat.one_pos
  | text s =>
    exact pyFloatParseChars_den_pos s.data q h

/-! ### The outlier scan invariant -/

/-- the four-way case split of `updateExtrema` as one record -/
lemma updateExtrema_eq (e : Extrema) (q : PyFloat) (p : Nat × Row) :
    updateExtrema e q p =
      ⟨if pfLt q e.minV then q else e.minV,
       if pfLt q e.minV then p else e.minEntry,
       if pfLt e.maxV q then q else e.maxV,
       if pfLt e.maxV q then p else e.maxEntry⟩ := by
  by_cases h1 : pfLt q e.minV = true <;> by_cases h2 : pfLt e.maxV q = true <;>
    simp [updateExtrema, h1, h2]

lemma statsInv_step (os' : List Obs) (st : List (String × Extrema)) (o : Obs)
    (hInv : statsInv os' st) (hds : ∀ x ∈ os', 0 < x.2.1.den) :
    statsInv (os' ++ [o]) (obsStep st o) := by
  obtain ⟨hmem, hpres⟩ := hInv
  obtain ⟨col, q, p⟩ := o
  by_cases hkey : st.any (fun e => e.1 = col) = true
  · constructor
    · intro c e hce
      simp only [obsStep, updateColStats, if_pos hkey] at hce
      obtain ⟨x, hx, hfx⟩ := List.mem_map.mp hce
      by_cases hxc : x.1 = col
      · rw [if_pos hxc, Prod.mk.injEq] at hfx
        obtain ⟨hc1, hc2⟩ := hfx
        subst hc1
        subst hc2
        obtain ⟨hex1, hex2, hbnd⟩ := hmem x.1 x.2 (by rw [Prod.mk.eta]; exact hx)
        have hminden : 0 < x.2.minV.den := hds _ hex1
        have hmaxden : 0 < x.2.maxV.den := hds _ hex2
        rw [updateExtrema_eq]
        refine ⟨?_, ?_, ?_⟩
        · by_cases h1 : pfLt q x.2.minV = true
          · simp only [h1, if_true, hxc]
            exact List.mem_append_right _ (List.mem_singleton.mpr rfl)
          · simp only [h1, if_false]
            exact List.mem_append_left _ hex1
        · by_cases h2 : pfLt x.2.maxV q = true
          · simp only [h2, if_true, hxc]
            exact List.mem_append_right _ (List.mem_singleton.mpr rfl)
          · simp only [h2, if_false]
            exact List.mem_append_left _ hex2
        · intro o' ho' hoc
          rcases List.mem_append.mp ho' with ho' | ho'
          · obtain ⟨b1, b2⟩ := hbnd o' ho' hoc
            constructor
            · by_cases h1 : pfLt q x.2.minV = true
              · simp only [h1, if_true]
                exact pfLe_trans hminden (pfLe_of_pfLt h1) b1
              · simp only [h1, if_false]
                exact b1
            · by_cases h2 : pfLt x.2.maxV q = true
              · simp only [h2, if_true]
                exact pfLe_trans hmaxden b2 (pfLe_of_pfLt h2)
              · simp only [h2, if_false]
                exact b2
          · have ho'' : o' = (col, q, p) := List.mem_singleton.mp ho'
            subst ho''
            constructor
            · by_cases h1 : pfLt q x.2.minV = true
              · simp only [h1, if_true]
                exact pfLe_refl q
              · simp only [h1, if_false]
                exact pfLe_of_not_pfLt (Bool.eq_false_iff.mpr h1)
            · by_cases h2 : pfLt x.2.maxV q = true
              · simp only [h2, if_true]
                exact pfLe_refl q
              · simp only [h2, if_false]
                exact pfLe_of_not_pfLt (Bool.eq_false_iff.mpr h2)
      · rw [if_neg hxc] at hfx
        subst hfx
        obtain ⟨hex1, hex2, hbnd⟩ := hmem c e hx
        refine ⟨List.mem_append_left _ hex1, List.mem_append_left _ hex2, ?_⟩
        intro o' ho' hoc
        rcases List.mem_append.mp ho' with ho' | ho'
        · exact hbnd o' ho' hoc
        · have ho'' : o' = (col, q, p) := List.mem_singleton.mp ho'
          subst ho''
          exact absurd hoc.symm hxc
    · intro o' ho'
      rcases List.mem_append.mp ho' with ho' | ho'
      · obtain ⟨e, he⟩ := hpres o' ho'
        refine ⟨if o'.1 = col then updateExtrema e q p else e, ?_⟩
        simp only [obsStep, updateColStats, if_pos hkey]
        refine List.mem_map.mpr ⟨(o'.1, e), he, ?_⟩
        by_cases hoc : o'.1 = col <;> simp [hoc]
      · have ho'' : o' = (col, q, p) := List.mem_singleton.mp ho'
        subst ho''
        obtain ⟨x, hx, hxcol⟩ := List.any_eq_true.mp hkey
        have hxcol' : x.1 = col := of_decide_eq_true hxcol
        refine ⟨updateExtrema x.2 q p, ?_⟩
        simp only [obsStep, updateColStats, if_pos hkey]
        refine List.mem_map.mpr ⟨x, hx, ?_⟩
        rw [if_pos hxcol', hxcol']
  · constructor
    · intro c e hce
      simp only [obsStep, updateColStats, if_neg hkey] at hce
      rcases List.mem_append.mp hce with hold | hnew
      · have hc_ne : c ≠ col := by
          intro hcc
          exact hkey (List.any_eq_true.mpr ⟨(c, e), hold, by simp [hcc]⟩)
        obtain ⟨hex1, hex2, hbnd⟩ := hmem c e hold
        refine ⟨List.mem_append_left _ hex1, List.mem_append_left _ hex2, ?_⟩
        intro o' ho' hoc
        rcases List.mem_append.mp ho' with ho' | ho'
        · exact hbnd o' ho' hoc
        · have ho'' : o' = (col, q, p) := List.mem_singleton.mp ho'
          subst ho''
          exact absurd hoc (fun hcc => hc_ne hcc.symm)
      · have h1 : (c, e) = (col, (⟨q, p, q, p⟩ : Extrema)) := List.mem_singleton.mp hnew
        rw [Prod.mk.injEq] at h1
        obtain ⟨rfl, rfl⟩ := h1
        refine ⟨List.mem_append_right _ (List.mem_singleton.mpr rfl),
          List.mem_append_right _ (List.mem_singleton.mpr rfl), ?_⟩
        intro o' ho' hoc
        rcases List.mem_append.mp ho' with ho' | ho'
        · obtain ⟨e', he'⟩ := hpres o' ho'
          rw [hoc] at he'
          exact absurd (List.any_eq_true.mpr ⟨(c, e'), he', by simp⟩) hkey
        · have ho'' : o' = (c, q, p) := by
            have := List.mem_singleton.mp ho'
            rw [this]
          subst ho''
          exact ⟨pfLe_refl q, pfLe_refl q⟩
    · intro o' ho'
      rcases List.mem_append.mp ho' with ho' | ho'
      · obtain ⟨e, he⟩ := hpres o' ho'
        refine ⟨e, ?_⟩
        simp only [obsStep, updateColStats, if_neg hkey]
        exact List.mem_append_left _ he
      · have ho'' : o' = (col, q, p) := List.mem_singleton.mp ho'
        subst ho''
        refine ⟨⟨q, p, q, p⟩, ?_⟩
        simp only [obsStep, updateColStats, if_neg hkey]
        exact List.mem_append_right _ (List.mem_singleton.mpr rfl)

lemma statsInv_fold (os : List Obs) :
    ∀ (os' : List Obs) (st : List (String × Extrema)), statsInv os' st →
      (∀ x ∈ os' ++ os, 0 < x.2.1.den) →
      statsInv (os' ++ os) (os.foldl obsStep st) := by
  induction os with
  | nil =>
    intro os' st h _
    simpa using h
  | cons o os ih =>
    intro os' st h hd
    have h1 := statsInv_step os' st o h
      (fun x hx => hd x (List.mem_append_left _ hx))
    have h2 := ih (os' ++ [o]) (obsStep st o) h1
      (by intro x hx; apply hd; simpa [List.append_assoc] using hx)
    simpa [List.append_assoc] using h2

lemma statsInv_top (os : List Obs) (hd : ∀ x ∈ os, 0 < x.2.1.den) :
    statsInv os (os.foldl obsStep []) := by
  have h := statsInv_fold os [] []
    ⟨fun c e h => absurd h (List.not_mem_nil _), fun o h => absurd h (List.not_mem_nil _)⟩
    (by simpa using hd)
  simpa using h

lemma foldl_over_bind {A B S : Type} (L : List A) (f : A → List B) (g : S → B → S) :
    ∀ s, L.foldl (fun st a => (f a).foldl g st) s = (L.bind f).foldl g s := by
  induction L with
  | nil => intro s; rfl
  | cons x xs ih =>
    intro s
    simp only [List.foldl_cons, List.cons_bind, List.foldl_append]
    exact ih _

lemma updateRowStats_eq_obs (checked : List String) (p : Nat × Row) :
    ∀ st, updateRowStats checked st p = (obsOf checked p).foldl obsStep st := by
  induction checked with
  | nil => intro st; rfl
  | cons col cols ih =>
    intro st
    by_cases hh : rowHas p.2 col = true
    · cases hq : (rowGet p.2 col).bind getNumericValue with
      | some q =>
        have h1 : obsOf (col :: cols) p = (col, q, p) :: obsOf cols p := by
          simp only [obsOf, List.filterMap_cons, if_pos hh, hq]
        have h2 : updateRowStats (col :: cols) st p =
            updateRowStats cols (updateColStats st col q p) p := by
          simp only [updateRowStats, List.foldl_cons, if_pos hh, hq]
        rw [h2, h1, List.foldl_cons]
        exact ih _
      | none =>
        have h1 : obsOf (col :: cols) p = obsOf cols p := by
          simp only [obsOf, List.filterMap_cons, if_pos hh, hq]
        have h2 : updateRowStats (col :: cols) st p = updateRowStats cols st p := by
          simp only [updateRowStats, List.foldl_cons, if_pos hh, hq]
        rw [h2, h1]
        exact ih _
    · have h1 : obsOf (col :: cols) p = obsOf cols p := by
        simp only [obsOf, List.filterMap_cons, if_neg hh]
      have h2 : updateRowStats (col :: cols) st p = updateRowStats cols st p := by
        simp only [updateRowStats, List.foldl_cons, if_neg hh]
      rw [h2, h1]
      exact ih _

lemma outlierStats_eq_obsfold (keyCols : Option (List String)) (columns : List String)
    (rows : List Row) :
    outlierStats keyCols columns rows =
      ((rows.enum).bind (obsOf (colsToCheck keyCols columns))).foldl obsStep [] := by
  rw [← foldl_over_bind]
  simp only [outlierStats]
  congr 1
  funext st p
  exact updateRowStats_eq_obs _ p st

lemma mem_obsOf {checked : List String} {p : Nat × Row} {x : Obs} :
    x ∈ obsOf checked p ↔
      x.1 ∈ checked ∧ x.2.2 = p ∧ rowHas p.2 x.1 = true ∧
        (rowGet p.2 x.1).bind getNumericValue = some x.2.1 := by
  constructor
  · intro hx
    obtain ⟨col, hcol, hf⟩ := List.mem_filterMap.mp hx
    by_cases hh : rowHas p.2 col = true
    · rw [if_pos hh] at hf
      cases hq : (rowGet p.2 col).bind getNumericValue with
      | some q =>
        rw [hq, Option.some_inj] at hf
        subst hf
        exact ⟨hcol, rfl, hh, hq⟩
      | none =>
        rw [hq] at hf
        cases hf
    · rw [if_neg hh] at hf
      cases hf
  · rintro ⟨h1, h2, h3, h4⟩
    refine List.mem_filterMap.mpr ⟨x.1, h1, ?_⟩
    rw [if_pos h3, h4, ← h2]

lemma snd_mem_of_mem_enum {l : List Row} {p : Nat × Row} (hp : p ∈ l.enum) : p.2 ∈ l := by
  rw [List.mem_enum_iff_getElem?] at hp
  exact List.getElem?_mem hp

lemma enum_idx_inj {l : List Row} {p p' : Nat × Row} (hp : p ∈ l.enum) (hp' : p' ∈ l.enum)
    (h : p.1 = p'.1) : p = p' := by
  rw [List.mem_enum_iff_getElem?] at hp hp'
  rw [← h] at hp'
  rw [hp] at hp'
  exact Prod.ext h (Option.some_inj.mp hp')

lemma mem_enum_of_mem {l : List Row} {row : Row} (h : row ∈ l) :
    ∃ i : Nat, (i, row) ∈ l.enum := by
  obtain ⟨i, hi, hg⟩ := List.getElem_of_mem h
  refine ⟨i, List.mem_enum_iff_getElem?.mpr ?_⟩
  rw [List.getElem?_eq_getElem hi, hg]

/-! ### Phase-2 collection lemmas -/

lemma orStep_shape (acc : List (Nat × Row)) (e : String × Extrema) :
    ∃ t, orStep acc e = acc ++ t ∧
      ∀ p ∈ t, p = e.2.minEntry ∨ p = e.2.maxEntry := by
  unfold orStep
  by_cases h1 : (acc.any fun x => x.1 = e.2.minEntry.1) = true
  · simp only [if_pos h1]
    by_cases h2 : (acc.any fun x => x.1 = e.2.maxEntry.1) = true
    · exact ⟨[], by simp [if_pos h2], by simp⟩
    · exact ⟨[e.2.maxEntry], by simp [if_neg h2], by simp⟩
  · simp only [if_neg h1]
    by_cases h2 : ((acc ++ [e.2.minEntry]).any fun x => x.1 = e.2.maxEntry.1) = true
    · exact ⟨[e.2.minEntry], by simp [if_pos h2], by simp⟩
    · exact ⟨[e.2.minEntry, e.2.maxEntry], by simp [if_neg h2], by
        intro p hp
        rcases List.mem_cons.mp hp with rfl | hp
        · exact Or.inl rfl
        · exact Or.inr (List.mem_singleton.mp hp)⟩

lemma orStep_subset (acc : List (Nat × Row)) (e : String × Extrema) :
    ∀ p ∈ acc, p ∈ orStep acc e := by
  intro p hp
  obtain ⟨t, ht, _⟩ := orStep_shape acc e
  rw [ht]
  exact List.mem_append_left _ hp

lemma orFold_subset (l : List (String × Extrema)) :
    ∀ acc, ∀ p ∈ acc, p ∈ l.foldl orStep acc := by
  induction l with
  | nil => intro acc p hp; exact hp
  | cons e es ih =>
    intro acc p hp
    simp only [List.foldl_cons]
    exact ih _ p (orStep_subset acc e p hp)

lemma orStep_min_idx (acc : List (Nat × Row)) (e : String × Extrema) :
    ∃ p ∈ orStep acc e, p.1 = e.2.minEntry.1 := by
  by_cases h1 : (acc.any fun x => x.1 = e.2.minEntry.1) = true
  · obtain ⟨x, hx, hxi⟩ := List.any_eq_true.mp h1
    exact ⟨x, orStep_subset acc e x hx, of_decide_eq_true hxi⟩
  · have hmem : e.2.minEntry ∈ orStep acc e := by
      unfold orStep
      simp only [if_neg h1]
      by_cases h2 : ((acc ++ [e.2.minEntry]).any fun x => x.1 = e.2.maxEntry.1) = true
      · simp only [if_pos h2]
        exact List.mem_append_right _ (List.mem_singleton.mpr rfl)
      · simp only [if_neg h2]
        exact List.mem_append_left _ (List.mem_append_right _ (List.mem_singleton.mpr rfl))
    exact ⟨e.2.minEntry, hmem, rfl⟩

lemma orStep_max_idx (acc : List (Nat × Row)) (e : String × Extrema) :
    ∃ p ∈ orStep acc e, p.1 = e.2.maxEntry.1 := by
  unfold orStep
  by_cases h1 : (acc.any fun x => x.1 = e.2.minEntry.1) = true
  · simp only [if_pos h1]
    by_cases h2 : (acc.any fun x => x.1 = e.2.maxEntry.1) = true
    · obtain ⟨x, hx, hxi⟩ := List.any_eq_true.mp h2
      exact ⟨x, by simp only [if_pos h2]; exact hx, of_decide_eq_true hxi⟩
    · exact ⟨e.2.maxEntry, by
        simp only [if_neg h2]
        exact List.mem_append_right _ (List.mem_singleton.mpr rfl), rfl⟩
  · simp only [if_neg h1]
    by_cases h2 : ((acc ++ [e.2.minEntry]).any fun x => x.1 = e.2.maxEntry.1) = true
    · obtain ⟨x, hx, hxi⟩ := List.any_eq_true.mp h2
      exact ⟨x, by simp only [if_pos h2]; exact hx, of_decide_eq_true hxi⟩
    · exact ⟨e.2.maxEntry, by
        simp only [if_neg h2]
        exact List.mem_append_right _ (List.mem_singleton.mpr rfl), rfl⟩

lemma orFold_idx (l : List (String × Extrema)) :
    ∀ acc, ∀ ce ∈ l,
      (∃ p ∈ l.foldl orStep acc, p.1 = ce.2.minEntry.1) ∧
      (∃ p ∈ l.foldl orStep acc, p.1 = ce.2.maxEntry.1) := by
  induction l with
  | nil =>
    intro acc ce hce
    exact absurd hce (List.not_mem_nil ce)
  | cons e es ih =>
    intro acc ce hce
    simp only [List.foldl_cons]
    rcases List.mem_cons.mp hce with rfl | hce
    · obtain ⟨p1, hp1, hi1⟩ := orStep_min_idx acc ce
      obtain ⟨p2, hp2, hi2⟩ := orStep_max_idx acc ce
      exact ⟨⟨p1, orFold_subset es _ p1 hp1, hi1⟩, ⟨p2, orFold_subset es _ p2 hp2, hi2⟩⟩
    · exact ih _ ce hce

lemma orFold_sources (l : List (String × Extrema)) :
    ∀ acc p, p ∈ l.foldl orStep acc →
      p ∈ acc ∨ ∃ ce ∈ l, p = ce.2.minEntry ∨ p = ce.2.maxEntry := by
  induction l with
  | nil =>
    intro acc p hp
    exact Or.inl hp
  | cons e es ih =>
    intro acc p hp
    simp only [List.foldl_cons] at hp
    rcases ih _ p hp with hin | ⟨ce, hce, hor⟩
    · obtain ⟨t, ht, htmem⟩ := orStep_shape acc e
      rw [ht] at hin
      rcases List.mem_append.mp hin with hin | hin
      · exact Or.inl hin
      · exact Or.inr ⟨e, List.mem_cons_self e es, htmem p hin⟩
    · exact Or.inr ⟨ce, List.mem_cons_of_mem _ hce, hor⟩

lemma rowGet_mem {row : Row} {c : String} {v : Value} (h : rowGet row c = some v) :
    ∃ pr ∈ row, pr.2 = v := by
  unfold rowGet at h
  cases hf : row.find? (fun p => p.1 = c) with
  | none =>
    rw [hf] at h
    cases h
  | some pr =>
    rw [hf] at h
    exact ⟨pr, List.mem_of_find?_eq_some hf, Option.some_inj.mp h⟩

lemma rowHas_of_rowGet {row : Row} {c : String} {v : Value} (h : rowGet row c = some v) :
    rowHas row c = true := by
  induction row with
  | nil => cases h
  | cons p rest ih =>
    rw [rowGet_cons] at h
    by_cases hp : p.1 = c
    · simp [rowHas, hp]
    · rw [if_neg hp] at h
      have h2 := ih h
      simp only [rowHas, List.any_cons] at h2 ⊢
      rw [h2]
      simp

/-- C3: the outlier-aware sampler.  For every tracked column with at
least one numeric-coercible value there is a stats entry whose extremes
bound every observed numeric value of the column and are carried by
buffered rows; when the input exceeds the target and all collected
outlier rows fit in the target, both carriers are emitted.  When the
input fits in the target, all rows are emitted in arrival order. -/
theorem outlier_sampler_minmax {ρ : Type} (R : RngOps ρ) (r0 : ρ)
    (keyCols : Option (List String)) (T : Nat) (columns : List String) (rows : List Row)
    (hwf : ∀ row ∈ rows, ∀ pr ∈ row, ∀ q : PyFloat, pr.2 = Value.float q → 0 < q.den)
    (hs : ∀ {α : Type} (r : ρ) (l : List α) (k : Nat), k ≤ l.length →
      (R.sampleK r l k).1.length = k ∧ ∀ x ∈ (R.sampleK r l k).1, x ∈ l)
    (hp : ∀ {α : Type} (r : ρ) (l : List α), ((R.shuffle r l).1).Perm l)
    (hadm : (outlierRowsOf (outlierStats keyCols columns rows)).length ≤ T) :
    (rows.length ≤ T → outlierSample R r0 keyCols T columns rows = rows) ∧
    (∀ c, c ∈ colsToCheck keyCols columns → ∀ row ∈ rows, ∀ v, rowGet row c = some v →
      ∀ q, getNumericValue v = some q →
      ∃ e, (c, e) ∈ outlierStats keyCols columns rows) ∧
    (∀ c e, (c, e) ∈ outlierStats keyCols columns rows →
      (∀ row ∈ rows, ∀ v, rowGet row c = some v → ∀ q, getNumericValue v = some q →
        pfLe e.minV q = true ∧ pfLe q e.maxV = true) ∧
      (∃ v, rowGet e.minEntry.2 c = some v ∧ getNumericValue v = some e.minV) ∧
      (∃ v, rowGet e.maxEntry.2 c = some v ∧ getNumericValue v = some e.maxV) ∧
      (T < rows.length →
        e.minEntry.2 ∈ outlierSample R r0 keyCols T columns rows ∧
        e.maxEntry.2 ∈ outlierSample R r0 keyCols T columns rows)) := by
  have hd : ∀ x ∈ (rows.enum).bind (obsOf (colsToCheck keyCols columns)),
      0 < x.2.1.den := by
    intro x hx
    obtain ⟨p, hp1, hxo⟩ := List.mem_bind.mp hx
    obtain ⟨_, hpp, _, hbind⟩ := mem_obsOf.mp hxo
    obtain ⟨v, hv, hq⟩ := Option.bind_eq_some.mp hbind
    obtain ⟨pr, hpr, hprv⟩ := rowGet_mem hv
    refine getNumericValue_den_pos v x.2.1 ?_ hq
    intro q' hq'
    exact hwf p.2 (snd_mem_of_mem_enum hp1) pr hpr q' (by rw [hprv, hq'])
  have hInv := statsInv_top _ hd
  have hstats := outlierStats_eq_obsfold keyCols columns rows
  have hmkobs : ∀ c, c ∈ colsToCheck keyCols columns → ∀ row ∈ rows, ∀ v,
      rowGet row c = some v → ∀ q, getNumericValue v = some q →
      ∃ i : Nat, ((c, q, (i, row)) : Obs) ∈
        (rows.enum).bind (obsOf (colsToCheck keyCols columns)) := by
    intro c hc row hrow v hv q hq
    obtain ⟨i, hienum⟩ := mem_enum_of_mem hrow
    refine ⟨i, List.mem_bind.mpr ⟨(i, row), hienum, mem_obsOf.mpr ⟨hc, rfl, ?_, ?_⟩⟩⟩
    · exact rowHas_of_rowGet hv
    · rw [show rowGet (i, row).2 ((c, q, (i, row)) : Obs).1 = some v from hv]
      exact hq
  have hentry_enum : ∀ c e, (c, e) ∈ outlierStats keyCols columns rows →
      e.minEntry ∈ rows.enum ∧ e.maxEntry ∈ rows.enum := by
    intro c e hce
    rw [hstats] at hce
    obtain ⟨hx1, hx2, _⟩ := hInv.1 c e hce
    constructor
    · obtain ⟨pe, hpe, hobs⟩ := List.mem_bind.mp hx1
      have h2 := (mem_obsOf.mp hobs).2.1
      rw [show ((c, e.minV, e.minEntry) : Obs).2.2 = e.minEntry from rfl] at h2
      rw [h2]
      exact hpe
    · obtain ⟨pe, hpe, hobs⟩ := List.mem_bind.mp hx2
      have h2 := (mem_obsOf.mp hobs).2.1
      rw [show ((c, e.maxV, e.maxEntry) : Obs).2.2 = e.maxEntry from rfl] at h2
      rw [h2]
      exact hpe
  have houtlier_enum : ∀ p ∈ outlierRowsOf (outlierStats keyCols columns rows),
      p ∈ rows.enum := by
    intro p hpp
    rcases orFold_sources _ [] p hpp with h | ⟨ce, hce, hor⟩
    · exact absurd h (List.not_mem_nil p)
    · obtain ⟨h1, h2⟩ := hentry_enum ce.1 ce.2 (by rw [Prod.mk.eta]; exact hce)
      rcases hor with rfl | rfl
      · exact h1
      · exact h2
  have key : ∀ x ∈ outlierRowsOf (outlierStats keyCols columns rows),
      T < rows.length → x.2 ∈ outlierSample R r0 keyCols T columns rows := by
    intro x hx hgt
    have hfinish : ∀ (st : ρ) (l : List (Nat × Row)), l.length ≤ T → x ∈ l →
        x.2 ∈ ((R.shuffle st l).1.take T).map Prod.snd := by
      intro st l hlen hxmem
      have hperm := hp st l
      rw [List.take_of_length_le (by rw [hperm.length_eq]; exact hlen)]
      exact List.mem_map_of_mem Prod.snd (hperm.mem_iff.mpr hxmem)
    have hc1 : (rows.enum).isEmpty = false := by
      cases hrows : rows with
      | nil =>
        rw [hrows] at hgt
        simp at hgt
      | cons r rs => rfl
    have hc2 : ¬((rows.enum).length ≤ T) := by
      rw [List.enum_length]
      omega
    show x.2 ∈ outlierSample R r0 keyCols T columns rows
    simp only [outlierSample]
    rw [if_neg (by rw [hc1]; exact Bool.false_ne_true), if_neg hc2]
    set outs := outlierRowsOf (outlierStats keyCols columns rows) with houts
    set nonOut := (rows.enum).filter (fun p => ¬outs.any (fun q => q.1 = p.1)) with hnonOut
    split
    · split
      · exact hfinish _ _ hadm hx
      · refine hfinish _ _ ?_ (List.mem_append_left _ hx)
        rw [List.length_append,
          (hs r0 nonOut (min (T - outs.length) nonOut.length) (Nat.min_le_right _ _)).1]
        have h1 := Nat.min_le_left (T - outs.length) nonOut.length
        omega
    · exact hfinish _ _ hadm hx
  refine ⟨?_, ?_, ?_⟩
  · intro hle
    cases hrows : rows with
    | nil => rfl
    | cons r rs =>
      rw [hrows] at hle
      simp only [outlierSample]
      have hemp : ¬(((r :: rs).enum).isEmpty = true) := by
        rw [show ((r :: rs).enum).isEmpty = false from rfl]
        exact Bool.false_ne_true
      rw [if_neg hemp, if_pos (by rw [List.enum_length]; exact hle)]
  · intro c hc row hrow v hv q hq
    obtain ⟨i, hobs⟩ := hmkobs c hc row hrow v hv q hq
    obtain ⟨e, he⟩ := hInv.2 _ hobs
    exact ⟨e, by rw [hstats]; exact he⟩
  · intro c e hce
    have hce' := hce
    rw [hstats] at hce'
    obtain ⟨hx1, hx2, hbnd⟩ := hInv.1 c e hce'
    have hcchecked : c ∈ colsToCheck keyCols columns := by
      obtain ⟨pe, hpe, hobs⟩ := List.mem_bind.mp hx1
      exact (mem_obsOf.mp hobs).1
    obtain ⟨hmin_enum, hmax_enum⟩ := hentry_enum c e hce
    refine ⟨?_, ?_, ?_, ?_⟩
    · intro row hrow v hv q hq
      obtain ⟨i, hobs⟩ := hmkobs c hcchecked row hrow v hv q hq
      exact hbnd _ hobs rfl
    · obtain ⟨pe, hpe, hobs⟩ := List.mem_bind.mp hx1
      obtain ⟨_, hpp, _, hbind⟩ := mem_obsOf.mp hobs
      obtain ⟨v, hv, hq⟩ := Option.bind_eq_some.mp hbind
      refine ⟨v, ?_, hq⟩
      rw [show ((c, e.minV, e.minEntry) : Obs).2.2 = e.minEntry from rfl] at hpp
      rw [hpp]
      exact hv
    · obtain ⟨pe, hpe, hobs⟩ := List.mem_bind.mp hx2
      obtain ⟨_, hpp, _, hbind⟩ := mem_obsOf.mp hobs
      obtain ⟨v, hv, hq⟩ := Option.bind_eq_some.mp hbind
      refine ⟨v, ?_, hq⟩
      rw [show ((c, e.maxV, e.maxEntry) : Obs).2.2 = e.maxEntry from rfl] at hpp
      rw [hpp]
      exact hv
    · intro hgt
      obtain ⟨hidx1, hidx2⟩ := orFold_idx _ [] (c, e) hce
      obtain ⟨p1, hp1, hi1⟩ := hidx1
      obtain ⟨p2, hp2, hi2⟩ := hidx2
      have hp1' : p1 = e.minEntry :=
        enum_idx_inj (houtlier_enum p1 hp1) hmin_enum hi1
      have hp2' : p2 = e.maxEntry :=
        enum_idx_inj (houtlier_enum p2 hp2) hmax_enum hi2
      constructor
      · rw [← hp1']
        exact key p1 hp1 hgt
      · rw [← hp2']
        exact key p2 hp2 hgt

/-- C3 witness: the spec's S4 scenario — values 5, 7, 8, 3, 100, 9 with
target 3: the rows carrying 3 and 100 are both emitted. -/
theorem outlier_sampler_minmax_w :
    [("value", Value.int 3)] ∈ outlierSample takeRng () (some ["value"]) 3 ["value"]
      [[("value", Value.int 5)], [("value", Value.int 7)], [("value", Value.int 8)],
       [("value", Value.int 3)], [("value", Value.int 100)], [("value", Value.int 9)]] ∧
    [("value", Value.int 100)] ∈ outlierSample takeRng () (some ["value"]) 3 ["value"]
      [[("value", Value.int 5)], [("value", Value.int 7)], [("value", Value.int 8)],
       [("value", Value.int 3)], [("value", Value.int 100)], [("value", Value.int 9)]] := by
  have h := outlier_sampler_minmax takeRng () (some ["value"]) 3 ["value"]
    [[("value", Value.int 5)], [("value", Value.int 7)], [("value", Value.int 8)],
     [("value", Value.int 3)], [("value", Value.int 100)], [("value", Value.int 9)]]
    (by
      intro row hr pr hpr q hq
      fin_cases hr <;>
        · rw [List.mem_singleton] at hpr
          subst hpr
          simp at hq)
    takeRng_sampleK_spec takeRng_shuffle_perm (by decide)
  have h2 := (h.2.2 "value"
    ⟨PyFloat.ofInt 3, (3, [("value", Value.int 3)]),
     PyFloat.ofInt 100, (4, [("value", Value.int 100)])⟩ (by decide)).2.2.2 (by decide)
  exact h2

/-- C10 witness at a concrete two-value boolean column. -/
theorem column_stats_boolean_minmax_w :
    (([true, false].map Value.bool).foldl ColumnStats.update
        { column_name := "flag" }).min_value = some (Value.bool false) ∧
    (([true, false].map Value.bool).foldl ColumnStats.update
        { column_name := "flag" }).max_value = some (Value.bool true) ∧
    "min_value" ∈ (manifestColumnEntry (([true, false].map Value.bool).foldl
        ColumnStats.update { column_name := "flag" })).map Prod.fst ∧
    "max_value" ∈ (manifestColumnEntry (([true, false].map Value.bool).foldl
        ColumnStats.update { column_name := "flag" })).map Prod.fst := by
  have h := column_stats_boolean_minmax "flag" [true, false] (by decide)
  simpa using h

end DNUDS
